import Mathlib

/-!
Verification of the smart-load truck load optimizer.

Shallow embedding conventions:
- Go `int` / `int64` / `domain.Money` are modelled as `Int` (the §6 input bounds
  keep every computation far below 2^63, so overflow never occurs on valid inputs).
- Go `float64` is modelled by the exact fraction type `Frac` (a quotient of two
  `Int`s, not normalized); all inputs exercised here keep the float computations
  of the source exact, so the idealization agrees with the source on them.
- Go `time.Time` is modelled as `Int` nanoseconds since epoch, matching the
  int64 nanosecond representation used by `time.Duration` subtraction.
- Wall-clock fields (`ComputeTimeMs`) are outside the model.
- Go slices are Lean `List`s; bitmask subset states are `Nat` with `Nat.testBit`.
-/

namespace SmartLoad

/-- Exact fraction model of Go float64: numerator / denominator, not normalized.
All constructors used by the embedding keep the denominator positive except a
division by a zero value, which yields a junk value with denominator 0,
mirroring the junk (Inf/NaN) such a division produces in the source. -/
structure Frac where
  num : Int
  den : Int
deriving DecidableEq, Repr

def Frac.ofInt (n : Int) : Frac := ⟨n, 1⟩

def Frac.add (a b : Frac) : Frac := ⟨a.num * b.den + b.num * a.den, a.den * b.den⟩

def Frac.sub (a b : Frac) : Frac := ⟨a.num * b.den - b.num * a.den, a.den * b.den⟩

def Frac.mul (a b : Frac) : Frac := ⟨a.num * b.num, a.den * b.den⟩

def Frac.div (a b : Frac) : Frac := ⟨a.num * b.den, a.den * b.num⟩

def Frac.neg (a : Frac) : Frac := ⟨-a.num, a.den⟩

def Frac.le (a b : Frac) : Bool := a.num * b.den ≤ b.num * a.den

def Frac.lt (a b : Frac) : Bool := a.num * b.den < b.num * a.den

/-- Go `int(x)` / `Money(x)` conversion from float64: truncation toward zero. -/
def Frac.trunc (a : Frac) : Int := a.num.tdiv a.den

structure Truck where
  id : String
  maxWeightLbs : Int
  maxVolumeCuft : Int
deriving DecidableEq, Repr

structure Order where
  id : String
  payout : Int
  weightLbs : Int
  volumeCuft : Int
  origin : String
  destination : String
  pickupDate : Int
  deliveryDate : Int
  isHazmat : Bool
deriving DecidableEq, Repr

/-- Placeholder order used for out-of-range list indexing (never reached on the
in-bounds indices the source uses). -/
def dOrder : Order := ⟨"", 0, 0, 0, "", "", 0, 0, false⟩

/-- `Order.Route()`: `fmt.Sprintf("%s->%s", o.Origin, o.Destination)`. -/
def Order.route (o : Order) : String := o.origin ++ "->" ++ o.destination

/-- `DefaultConstraintChecker.timeWindowsCompatible`: always true. -/
def timeWindowsCompatible (_o1 _o2 : Order) : Bool := true

/-- `DefaultConstraintChecker.CanCombine`. -/
def canCombine (o1 o2 : Order) : Bool :=
  if o1.route ≠ o2.route then false
  else if o1.isHazmat ≠ o2.isHazmat then false
  else if ¬ timeWindowsCompatible o1 o2 then false
  else true

/-- `DefaultConstraintChecker.CanFit`. -/
def canFit (t : Truck) (currentWeight currentVolume : Int) (o : Order) : Bool :=
  currentWeight + o.weightLbs ≤ t.maxWeightLbs && currentVolume + o.volumeCuft ≤ t.maxVolumeCuft

/-- `DefaultConstraintChecker.ValidateOrderSet`: every pair (i < j) combines. -/
def validateOrderSet : List Order → Bool
  | [] => true
  | o :: rest => rest.all (fun o2 => canCombine o o2) && validateOrderSet rest

/-- `domain.FilterFeasibleOrders`: drop orders that alone exceed capacity. -/
def filterFeasibleOrders (t : Truck) (orders : List Order) : List Order :=
  orders.filter (fun o => !(o.weightLbs > t.maxWeightLbs || o.volumeCuft > t.maxVolumeCuft))

/-- One hour of Go `time.Duration` in nanoseconds. -/
def nsPerHour : Int := 3600000000000

/-- `StrictConstraintChecker.CanCombine`: the default checks plus a pickup-date
window: `daysDiff := o1.PickupDate.Sub(o2.PickupDate).Hours() / 24`, made
non-negative, must be at most 1. -/
def strictCanCombine (o1 o2 : Order) : Bool :=
  if ¬ canCombine o1 o2 then false
  else
    let daysDiff := Frac.div (Frac.div (Frac.ofInt (o1.pickupDate - o2.pickupDate)) (Frac.ofInt nsPerHour)) (Frac.ofInt 24)
    let daysDiff := if Frac.lt daysDiff (Frac.ofInt 0) then daysDiff.neg else daysDiff
    Frac.le daysDiff (Frac.ofInt 1)

structure OptimizationResult where
  selectedOrders : List Order
  totalPayout : Int
  totalWeight : Int
  totalVolume : Int
deriving DecidableEq, Repr

def sumPayout (s : List Order) : Int := (s.map (fun o => o.payout)).sum

def sumWeight (s : List Order) : Int := (s.map (fun o => o.weightLbs)).sum

def sumVolume (s : List Order) : Int := (s.map (fun o => o.volumeCuft)).sum

/-- Incompatibility bitmask of order `i`: bit `j` is set when `i ≠ j` and
`CanCombine(orders[i], orders[j])` is false. -/
def incompatMask (orders : List Order) (i : Nat) : Nat :=
  (List.range orders.length).foldl
    (fun acc j =>
      if i ≠ j ∧ canCombine (orders.getD i dOrder) (orders.getD j dOrder) = false
      then acc ||| (1 <<< j) else acc) 0

/-- The four flat DP arrays of `DPOptimizer.Optimize`, as functions of the mask. -/
structure DPTable where
  payout : Nat → Int
  weight : Nat → Int
  volume : Nat → Int
  valid : Nat → Bool

/-- Zero-initialized arrays with `dpValid[0] = true`. -/
def dpInit : DPTable :=
  ⟨fun _ => 0, fun _ => 0, fun _ => 0, fun m => m = 0⟩

/-- One iteration of the inner loop of the DP sweep: try to extend `mask`
with order `i`.  `cw`/`cv` are the weight/volume read for `mask` before the
inner loop (the inner loop never writes at `mask`, so they stay current). -/
def dpExtend (t : Truck) (orders : List Order) (inc : Nat → Nat) (mask : Nat)
    (cw cv : Int) (tbl : DPTable) (i : Nat) : DPTable :=
  if mask.testBit i then tbl
  else if mask &&& inc i ≠ 0 then tbl
  else
    let o := orders.getD i dOrder
    let newWeight := cw + o.weightLbs
    let newVolume := cv + o.volumeCuft
    if newWeight > t.maxWeightLbs ∨ newVolume > t.maxVolumeCuft then tbl
    else
      let newMask := mask ||| (1 <<< i)
      let newPayout := tbl.payout mask + o.payout
      if tbl.valid newMask = false ∨ newPayout > tbl.payout newMask then
        ⟨fun m => if m = newMask then newPayout else tbl.payout m,
         fun m => if m = newMask then newWeight else tbl.weight m,
         fun m => if m = newMask then newVolume else tbl.volume m,
         fun m => if m = newMask then true else tbl.valid m⟩
      else tbl

/-- One iteration of the outer loop of the DP sweep (one reachable mask). -/
def dpProcessMask (t : Truck) (orders : List Order) (inc : Nat → Nat)
    (tbl : DPTable) (mask : Nat) : DPTable :=
  if tbl.valid mask then
    (List.range orders.length).foldl
      (dpExtend t orders inc mask (tbl.weight mask) (tbl.volume mask)) tbl
  else tbl

/-- The full DP sweep over masks in increasing numeric order. -/
def dpTable (t : Truck) (orders : List Order) : DPTable :=
  (List.range (2 ^ orders.length)).foldl
    (dpProcessMask t orders (incompatMask orders)) dpInit

/-- The final best-mask scan: maximum payout over valid masks, first (= lowest)
mask wins ties because the comparison is strict. -/
def dpBest (tbl : DPTable) (maxStates : Nat) : Int × Nat :=
  (List.range maxStates).foldl
    (fun best mask =>
      if tbl.valid mask = true ∧ tbl.payout mask > best.1
      then (tbl.payout mask, mask) else best)
    (0, 0)

/-- `DPOptimizer.extractOrders`: decode a mask into the selected orders. -/
def extractOrders (mask : Nat) (orders : List Order) : List Order :=
  ((List.range orders.length).filter (fun i => mask.testBit i)).map
    (fun i => orders.getD i dOrder)

/-- `DPOptimizer.Optimize`. -/
def dpOptimize (t : Truck) (orders : List Order) : OptimizationResult :=
  if orders.isEmpty then ⟨[], 0, 0, 0⟩
  else
    let orders := filterFeasibleOrders t orders
    if orders.isEmpty then ⟨[], 0, 0, 0⟩
    else
      let tbl := dpTable t orders
      let best := dpBest tbl (2 ^ orders.length)
      ⟨extractOrders best.2 orders, best.1, tbl.weight best.2, tbl.volume best.2⟩

/-- The mask-indexed result the DP computes, with no special empty cases
(they coincide with it; see `dpOptimize_eq_dpResult`). -/
def dpResult (t : Truck) (orders : List Order) : OptimizationResult :=
  let tbl := dpTable t orders
  let best := dpBest tbl (2 ^ orders.length)
  ⟨extractOrders best.2 orders, best.1, tbl.weight best.2, tbl.volume best.2⟩

/-- Simultaneous swap `l[i], l[j] = l[j], l[i]` of `GreedyOptimizer.sortByValueDensity`. -/
def swapIdx (l : List Order) (i j : Nat) : List Order :=
  (l.set i (l.getD j dOrder)).set j (l.getD i dOrder)

/-- Value density `payout / weight` as float64. -/
def density (o : Order) : Frac := Frac.div (Frac.ofInt o.payout) (Frac.ofInt o.weightLbs)

/-- `GreedyOptimizer.sortByValueDensity`: the source's double-loop
compare-and-swap pass (a selection sort by descending density). -/
def sortByValueDensity (orders : List Order) : List Order :=
  (List.range (orders.length - 1)).foldl
    (fun acc i =>
      (List.range orders.length).foldl
        (fun acc2 j =>
          if i < j ∧ Frac.lt (density (acc2.getD i dOrder)) (density (acc2.getD j dOrder))
          then swapIdx acc2 i j else acc2)
        acc)
    orders

/-- One iteration of the greedy acceptance scan: state is
(selected, totalWeight, totalVolume, totalPayout). -/
def greedyStep (t : Truck) (st : List Order × Int × Int × Int) (o : Order) :
    List Order × Int × Int × Int :=
  if canFit t st.2.1 st.2.2.1 o = false then st
  else if st.1.all (fun s => canCombine o s) then
    (st.1 ++ [o], st.2.1 + o.weightLbs, st.2.2.1 + o.volumeCuft, st.2.2.2 + o.payout)
  else st

/-- `GreedyOptimizer.Optimize`. -/
def greedyOptimize (t : Truck) (orders : List Order) : OptimizationResult :=
  let orders := filterFeasibleOrders t orders
  let sorted := sortByValueDensity orders
  let st := sorted.foldl (greedyStep t) ([], 0, 0, 0)
  ⟨st.1, st.2.2.2, st.2.1, st.2.2.1⟩

/-- Best-so-far fields of `BacktrackingOptimizer`. -/
structure Best where
  orders : List Order
  payout : Int
  weight : Int
  volume : Int
deriving DecidableEq, Repr

/-- `BacktrackingOptimizer.backtrack`, with the mutable best-so-far fields
threaded explicitly. -/
def backtrack (t : Truck) (orders : List Order) (currentOrders : List Order)
    (index : Nat) (currentPayout currentWeight currentVolume : Int) (best : Best) : Best :=
  let best :=
    if currentPayout > best.payout
    then ⟨currentOrders, currentPayout, currentWeight, currentVolume⟩ else best
  if h : orders.length ≤ index then best
  else
    let remainingPayout := sumPayout (orders.drop index)
    if currentPayout + remainingPayout ≤ best.payout then best
    else
      let o := orders.getD index dOrder
      let newWeight := currentWeight + o.weightLbs
      let newVolume := currentVolume + o.volumeCuft
      let best :=
        if (newWeight ≤ t.maxWeightLbs ∧ newVolume ≤ t.maxVolumeCuft) ∧
            currentOrders.all (fun s => canCombine o s) then
          backtrack t orders (currentOrders ++ [o]) (index + 1)
            (currentPayout + o.payout) newWeight newVolume best
        else best
      backtrack t orders currentOrders (index + 1) currentPayout currentWeight currentVolume best
termination_by orders.length - index
decreasing_by
  all_goals exact Nat.sub_lt_sub_left (Nat.lt_of_not_le h) (Nat.lt_succ_self index)

/-- `BacktrackingOptimizer.Optimize`. -/
def btOptimize (t : Truck) (orders : List Order) : OptimizationResult :=
  let orders := filterFeasibleOrders t orders
  let b := backtrack t orders [] 0 0 0 0 ⟨[], 0, 0, 0⟩
  ⟨b.orders, b.payout, b.weight, b.volume⟩

/-- `HybridOptimizer.Optimize` with `maxDPSize = 22`. -/
def hybridOptimize (t : Truck) (orders : List Order) : OptimizationResult :=
  if orders.length ≤ 22 then dpOptimize t orders
  else greedyOptimize t orders

/-- `service.roundToTwoDecimals`: `float64(int(value*100+0.5)) / 100`. -/
def roundToTwoDecimals (v : Frac) : Frac :=
  ⟨(Frac.add (Frac.mul v (Frac.ofInt 100)) ⟨1, 2⟩).trunc, 100⟩

/-- The relabeled copy of one order built by `optimizeWithWeights`:
payout replaced by `Money(revenueWeight*revenue + utilizationWeight*utilization*10000)`. -/
def weightedOrder (t : Truck) (revenueWeight utilizationWeight : Frac) (o : Order) : Order :=
  let revenue := Frac.ofInt o.payout
  let utilization :=
    Frac.div
      (Frac.add (Frac.div (Frac.ofInt o.weightLbs) (Frac.ofInt t.maxWeightLbs))
                (Frac.div (Frac.ofInt o.volumeCuft) (Frac.ofInt t.maxVolumeCuft)))
      (Frac.ofInt 2)
  let score := Frac.add (Frac.mul revenueWeight revenue)
                        (Frac.mul (Frac.mul utilizationWeight utilization) (Frac.ofInt 10000))
  { o with payout := score.trunc }

/-- `OptimizerService.optimizeWithWeights`, parameterized by the service's
optimizer `opt` (`s.optimizer`, a `HybridOptimizer` for `NewOptimizerService`). -/
def optimizeWithWeights (opt : Truck → List Order → OptimizationResult)
    (t : Truck) (orders : List Order) (revenueWeight utilizationWeight : Frac) :
    OptimizationResult :=
  opt t (orders.map (weightedOrder t revenueWeight utilizationWeight))

structure OptimizeResponse where
  truckID : String
  selectedOrderIDs : List String
  totalPayoutCents : Int
  totalWeightLbs : Int
  totalVolumeCuft : Int
  utilizationWeightPercent : Frac
  utilizationVolumePercent : Frac
deriving DecidableEq, Repr

/-- `OptimizerService.buildResponse`. -/
def buildResponse (t : Truck) (result : OptimizationResult) : OptimizeResponse :=
  let utilizationWeight :=
    if t.maxWeightLbs > 0
    then Frac.mul (Frac.div (Frac.ofInt result.totalWeight) (Frac.ofInt t.maxWeightLbs)) (Frac.ofInt 100)
    else Frac.ofInt 0
  let utilizationVolume :=
    if t.maxVolumeCuft > 0
    then Frac.mul (Frac.div (Frac.ofInt result.totalVolume) (Frac.ofInt t.maxVolumeCuft)) (Frac.ofInt 100)
    else Frac.ofInt 0
  ⟨t.id, result.selectedOrders.map (fun o => o.id), result.totalPayout,
   result.totalWeight, result.totalVolume,
   roundToTwoDecimals utilizationWeight, roundToTwoDecimals utilizationVolume⟩

/-- The core of `OptimizerService.OptimizeLoad` after validation and conversion,
when an `OptimizationConfig` with weights `(revenueWeight, utilizationWeight)`
is present: preprocess (`FilterFeasibleOrders`), solve (scalarized unless the
weights are pure-revenue `(1, 0)`), and build the response. -/
def optimizeLoadCore (opt : Truck → List Order → OptimizationResult)
    (t : Truck) (orders : List Order) (revenueWeight utilizationWeight : Frac) :
    OptimizeResponse :=
  let orders := filterFeasibleOrders t orders
  let result :=
    if revenueWeight ≠ Frac.ofInt 1 ∨ utilizationWeight ≠ Frac.ofInt 0
    then optimizeWithWeights opt t orders revenueWeight utilizationWeight
    else opt t orders
  buildResponse t result

structure ParetoSolution where
  orderIDs : List String
  totalPayoutCents : Int
  totalWeightLbs : Int
  totalVolumeCuft : Int
  utilizationWeightPercent : Frac
  utilizationVolumePercent : Frac
  score : Frac
deriving DecidableEq, Repr

/-- Placeholder solution for out-of-range list indexing. -/
def dSol : ParetoSolution := ⟨[], 0, 0, 0, Frac.ofInt 0, Frac.ofInt 0, Frac.ofInt 0⟩

/-- The dedup key built in `GetParetoOptimalSolutions`:
ids of the selected orders, each followed by a comma. -/
def solutionKey (result : OptimizationResult) : String :=
  result.selectedOrders.foldl (fun key o => key ++ o.id ++ ",") ""

/-- The `ParetoSolution` built for one weight vector in `GetParetoOptimalSolutions`. -/
def mkParetoSolution (t : Truck) (w : Frac × Frac) (result : OptimizationResult) :
    ParetoSolution :=
  let weightUtil :=
    if t.maxWeightLbs > 0
    then Frac.mul (Frac.div (Frac.ofInt result.totalWeight) (Frac.ofInt t.maxWeightLbs)) (Frac.ofInt 100)
    else Frac.ofInt 0
  let volumeUtil :=
    if t.maxVolumeCuft > 0
    then Frac.mul (Frac.div (Frac.ofInt result.totalVolume) (Frac.ofInt t.maxVolumeCuft)) (Frac.ofInt 100)
    else Frac.ofInt 0
  let score := Frac.add (Frac.mul w.1 (Frac.ofInt result.totalPayout))
                        (Frac.mul (Frac.mul w.2 (Frac.add weightUtil volumeUtil)) (Frac.ofInt 1000))
  ⟨result.selectedOrders.map (fun o => o.id), result.totalPayout,
   result.totalWeight, result.totalVolume,
   roundToTwoDecimals weightUtil, roundToTwoDecimals volumeUtil,
   roundToTwoDecimals score⟩

/-- The five fixed (revenue, utilization) weight vectors of the Pareto loop. -/
def fiveWeights : List (Frac × Frac) :=
  [(Frac.ofInt 1, Frac.ofInt 0), (⟨8, 10⟩, ⟨2, 10⟩), (⟨6, 10⟩, ⟨4, 10⟩),
   (⟨4, 10⟩, ⟨6, 10⟩), (⟨2, 10⟩, ⟨8, 10⟩)]

/-- The candidate-collection loop of `GetParetoOptimalSolutions`: skip
already-seen keys, append otherwise, and break as soon as `maxSolutions`
candidates have been collected. -/
def paretoCollect (opt : Truck → List Order → OptimizationResult)
    (t : Truck) (orders : List Order) (maxSolutions : Nat) :
    List (Frac × Frac) → List ParetoSolution → List String → List ParetoSolution
  | [], sols, _ => sols
  | w :: ws, sols, seen =>
    let result := optimizeWithWeights opt t orders w.1 w.2
    let key := solutionKey result
    if key ∈ seen then paretoCollect opt t orders maxSolutions ws sols seen
    else
      let sols2 := sols ++ [mkParetoSolution t w result]
      if maxSolutions ≤ sols2.length then sols2
      else paretoCollect opt t orders maxSolutions ws sols2 (key :: seen)

/-- Float comparison `sol2 dominates sol1` used by `filterParetoOptimal`. -/
def dominates (sol2 sol1 : ParetoSolution) : Bool :=
  sol2.totalPayoutCents ≥ sol1.totalPayoutCents &&
  Frac.le sol1.utilizationWeightPercent sol2.utilizationWeightPercent &&
  Frac.le sol1.utilizationVolumePercent sol2.utilizationVolumePercent &&
  (sol2.totalPayoutCents > sol1.totalPayoutCents ||
   Frac.lt sol1.utilizationWeightPercent sol2.utilizationWeightPercent ||
   Frac.lt sol1.utilizationVolumePercent sol2.utilizationVolumePercent)

/-- `OptimizerService.filterParetoOptimal`: keep `solutions[i]` unless some
other index `j ≠ i` dominates it. -/
def filterParetoOptimal (solutions : List ParetoSolution) : List ParetoSolution :=
  ((List.range solutions.length).filter
    (fun i => !((List.range solutions.length).any
      (fun j => decide (j ≠ i) && dominates (solutions.getD j dSol) (solutions.getD i dSol))))).map
    (fun i => solutions.getD i dSol)

/-- `OptimizerService.GetParetoOptimalSolutions`. -/
def getParetoOptimalSolutions (opt : Truck → List Order → OptimizationResult)
    (t : Truck) (orders : List Order) (maxSolutions : Nat) : List ParetoSolution :=
  filterParetoOptimal (paretoCollect opt t orders maxSolutions fiveWeights [] [])

/-- The break-free candidate enumeration: solve at every weight vector in `ws`,
dropping results whose key was already seen.  Used to characterize the loop. -/
def dedupCandidates (opt : Truck → List Order → OptimizationResult)
    (t : Truck) (orders : List Order) :
    List (Frac × Frac) → List String → List ((Frac × Frac) × OptimizationResult)
  | [], _ => []
  | w :: ws, seen =>
    let result := optimizeWithWeights opt t orders w.1 w.2
    let key := solutionKey result
    if key ∈ seen then dedupCandidates opt t orders ws seen
    else (w, result) :: dedupCandidates opt t orders ws (key :: seen)

/-- Modelled from the spec: the Pareto pipeline as §4.6 words it — build the
deduplicated candidate list at the five weight vectors, dominance-filter it,
and only then truncate to the caller-supplied maximum count. -/
def paretoSpecPipeline (opt : Truck → List Order → OptimizationResult)
    (t : Truck) (orders : List Order) (maxSolutions : Nat) : List ParetoSolution :=
  (filterParetoOptimal
    ((dedupCandidates opt t orders fiveWeights []).map (fun wr => mkParetoSolution t wr.1 wr.2))).take
    maxSolutions

/-! Concrete example inputs (all satisfying the §6 input bounds) used to
exercise the model at specific points. -/

/-- Scenario A truck: 44000 lbs, 3000 cuft. -/
def exTruckA : Truck := ⟨"truck-123", 44000, 3000⟩

def exOrder1 : Order := ⟨"O1", 250000, 18000, 1200, "LA", "DAL", 0, 86400000000000, false⟩

def exOrder2 : Order := ⟨"O2", 180000, 12000, 900, "LA", "DAL", 0, 86400000000000, false⟩

/-- Scenario C pair: same route, one hazmat. -/
def exHaz : Order := ⟨"H", 100000, 100, 10, "LA", "DAL", 0, 0, true⟩

def exNonHaz : Order := ⟨"N", 150000, 100, 10, "LA", "DAL", 0, 0, false⟩

/-- A tiny truck exactly filled by `exOrderSmall`. -/
def exTruckSmall : Truck := ⟨"T", 2, 2⟩

def exOrderSmall : Order := ⟨"O1", 100, 2, 2, "a", "b", 0, 0, false⟩

/-- Two orders on different routes: equal payout, different utilization. -/
def exOrderPA : Order := ⟨"A", 100, 1, 1, "a", "b", 0, 0, false⟩

def exOrderPB : Order := ⟨"B", 100, 2, 2, "c", "d", 0, 0, false⟩

/-- A 23-order input whose greedy answer is provably suboptimal: the dense
order X (13 payout / 11 lbs) blocks the pair Y+Z (20 payout / 20 lbs); the
20 junk orders do not fit the truck at all. -/
def exTruckD : Truck := ⟨"T", 20, 100⟩

def exOrderX : Order := ⟨"X", 13, 11, 1, "a", "b", 0, 0, false⟩

def exOrderY : Order := ⟨"Y", 10, 10, 1, "a", "b", 0, 0, false⟩

def exOrderZ : Order := ⟨"Z", 10, 10, 1, "a", "b", 0, 0, false⟩

def exJunk : Order := ⟨"J", 1, 1000, 1, "a", "b", 0, 0, false⟩

def exOrdersD : List Order := List.replicate 20 exJunk ++ [exOrderX, exOrderY, exOrderZ]

/-! Basic facts about the constraint checker. -/

theorem canCombine_eq (a b : Order) :
    canCombine a b = (decide (a.route = b.route) && decide (a.isHazmat = b.isHazmat)) := by
  unfold canCombine timeWindowsCompatible
  by_cases h1 : a.route = b.route <;> by_cases h2 : a.isHazmat = b.isHazmat <;> simp [h1, h2]

theorem canCombine_symm (a b : Order) : canCombine a b = canCombine b a := by
  rw [canCombine_eq, canCombine_eq]
  congr 1
  · exact decide_eq_decide.mpr ⟨Eq.symm, Eq.symm⟩
  · exact decide_eq_decide.mpr ⟨Eq.symm, Eq.symm⟩

/-- Pairwise compatibility of a list of orders, position by position. -/
def PairwiseCompatible (s : List Order) : Prop :=
  List.Pairwise (fun a b => canCombine a b = true) s

theorem validateOrderSet_iff (s : List Order) :
    validateOrderSet s = true ↔ PairwiseCompatible s := by
  induction s with
  | nil => simp [validateOrderSet, PairwiseCompatible]
  | cons o rest ih =>
    simp [validateOrderSet, PairwiseCompatible, List.pairwise_cons, List.all_eq_true,
      PairwiseCompatible] at ih ⊢
    rw [ih]
    tauto

@[simp] theorem sumPayout_nil : sumPayout [] = 0 := rfl

@[simp] theorem sumWeight_nil : sumWeight [] = 0 := rfl

@[simp] theorem sumVolume_nil : sumVolume [] = 0 := rfl

@[simp] theorem sumPayout_cons (o : Order) (s : List Order) :
    sumPayout (o :: s) = o.payout + sumPayout s := by simp [sumPayout]

@[simp] theorem sumWeight_cons (o : Order) (s : List Order) :
    sumWeight (o :: s) = o.weightLbs + sumWeight s := by simp [sumWeight]

@[simp] theorem sumVolume_cons (o : Order) (s : List Order) :
    sumVolume (o :: s) = o.volumeCuft + sumVolume s := by simp [sumVolume]

@[simp] theorem sumPayout_append (a b : List Order) :
    sumPayout (a ++ b) = sumPayout a + sumPayout b := by simp [sumPayout]

@[simp] theorem sumWeight_append (a b : List Order) :
    sumWeight (a ++ b) = sumWeight a + sumWeight b := by simp [sumWeight]

@[simp] theorem sumVolume_append (a b : List Order) :
    sumVolume (a ++ b) = sumVolume a + sumVolume b := by simp [sumVolume]

theorem sumPayout_perm {a b : List Order} (h : a.Perm b) : sumPayout a = sumPayout b :=
  (h.map _).sum_eq

theorem sumWeight_perm {a b : List Order} (h : a.Perm b) : sumWeight a = sumWeight b :=
  (h.map _).sum_eq

theorem sumVolume_perm {a b : List Order} (h : a.Perm b) : sumVolume a = sumVolume b :=
  (h.map _).sum_eq

/-! Bitmask facts. -/

theorem testBit_one_shiftLeft (i j : Nat) : (1 <<< i).testBit j = decide (i = j) := by
  simp [Nat.one_shiftLeft, Nat.testBit_two_pow]

theorem testBit_or_shiftLeft (m i j : Nat) :
    (m ||| 1 <<< i).testBit j = (m.testBit j || decide (i = j)) := by
  rw [Nat.testBit_or, testBit_one_shiftLeft]

theorem lt_or_shiftLeft (m i : Nat) (h : m.testBit i = false) : m < m ||| (1 <<< i) := by
  apply Nat.lt_of_testBit i h
  · rw [testBit_or_shiftLeft]
    simp
  · intro j hj
    rw [testBit_or_shiftLeft]
    simp [Nat.ne_of_lt hj]

theorem and_eq_zero_iff_testBit (m k : Nat) :
    m &&& k = 0 ↔ ∀ j, m.testBit j = true → k.testBit j = false := by
  constructor
  · intro h j hm
    have := congrArg (fun x => x.testBit j) h
    simp only [Nat.testBit_land, Nat.zero_testBit] at this
    rcases Bool.and_eq_false_iff.mp this with h' | h'
    · rw [hm] at h'; cases h'
    · exact h'
  · intro h
    apply Nat.eq_of_testBit_eq
    intro j
    simp only [Nat.testBit_land, Nat.zero_testBit]
    cases hm : m.testBit j with
    | false => simp
    | true => simp [h j hm]

theorem testBit_false_of_ge {m n : Nat} (h : m < 2 ^ n) {j : Nat} (hj : n ≤ j) :
    m.testBit j = false :=
  Nat.testBit_lt_two_pow (Nat.lt_of_lt_of_le h (Nat.pow_le_pow_right (by norm_num) hj))

theorem exists_testBit_of_ne_zero {m : Nat} (h : m ≠ 0) : ∃ i, m.testBit i = true := by
  by_contra hc
  push_neg at hc
  exact h (Nat.eq_of_testBit_eq (fun i => by simp [Bool.eq_false_iff.mpr (hc i)]))

/-! The incompatibility bitmask. -/

theorem foldl_or_testBit (L : List Nat) (Q : Nat → Prop) [DecidablePred Q] (acc k : Nat) :
    ((L.foldl (fun a j => if Q j then a ||| (1 <<< j) else a) acc).testBit k)
      = (acc.testBit k || L.any (fun j => decide (Q j) && decide (j = k))) := by
  induction L generalizing acc with
  | nil => simp
  | cons x L ih =>
    simp only [List.foldl_cons, List.any_cons]
    rw [ih]
    by_cases hq : Q x
    · rw [if_pos hq, testBit_or_shiftLeft]
      simp [hq, Bool.or_assoc]
    · rw [if_neg hq]
      simp [hq]

theorem incompatMask_testBit (l : List Order) (i j : Nat) :
    (incompatMask l i).testBit j = true ↔
      (j < l.length ∧ i ≠ j ∧ canCombine (l.getD i dOrder) (l.getD j dOrder) = false) := by
  unfold incompatMask
  rw [foldl_or_testBit]
  simp only [Nat.zero_testBit, Bool.false_or, List.any_eq_true, List.mem_range,
    Bool.and_eq_true, decide_eq_true_eq]
  constructor
  · rintro ⟨j', hj', hQ, rfl⟩
    exact ⟨hj', hQ.1, hQ.2⟩
  · rintro ⟨hj, hne, hcc⟩
    exact ⟨j, hj, ⟨hne, hcc⟩, rfl⟩

/-! Decoding masks into order lists. -/

theorem extractOrders_zero (l : List Order) : extractOrders 0 l = [] := by
  simp [extractOrders, Nat.zero_testBit]

theorem mem_extractOrders {x : Order} {mask : Nat} {l : List Order} :
    x ∈ extractOrders mask l ↔
      ∃ j, j < l.length ∧ mask.testBit j = true ∧ l.getD j dOrder = x := by
  simp only [extractOrders, List.mem_map, List.mem_filter, List.mem_range]
  constructor
  · rintro ⟨j, ⟨hj, hb⟩, rfl⟩
    exact ⟨j, hj, hb, rfl⟩
  · rintro ⟨j, hj, hb, rfl⟩
    exact ⟨j, ⟨hj, hb⟩, rfl⟩

theorem filter_or_eq_perm (L : List Nat) (hnd : L.Nodup) (i : Nat) (hi : i ∈ L)
    (p : Nat → Bool) (hpi : p i = false) :
    (L.filter (fun j => p j || decide (j = i))).Perm (i :: L.filter p) := by
  induction L with
  | nil => cases hi
  | cons x L ih =>
    have hndL : L.Nodup := (List.nodup_cons.mp hnd).2
    have hxL : x ∉ L := (List.nodup_cons.mp hnd).1
    rw [List.filter_cons, List.filter_cons]
    by_cases hxi : x = i
    · have hpx : p x = false := by rw [hxi]; exact hpi
      rw [if_pos (by simp [hxi]), if_neg (by simp [hpx])]
      have hLfilter : L.filter (fun j => p j || decide (j = i)) = L.filter p := by
        apply List.filter_congr
        intro j hj
        have hji : j ≠ i := by
          intro h
          apply hxL
          rw [hxi, ← h]
          exact hj
        simp [hji]
      rw [hLfilter, hxi]
    · have hiL : i ∈ L := by
        rcases List.mem_cons.mp hi with h | h
        · exact absurd h.symm hxi
        · exact h
      by_cases hpx : p x = true
      · rw [if_pos (by simp [hpx]), if_pos hpx]
        exact ((ih hndL hiL).cons x).trans (List.Perm.swap i x _)
      · have hpx' : p x = false := Bool.eq_false_iff.mpr hpx
        rw [if_neg (by simp [hpx', hxi]), if_neg (by simp [hpx'])]
        exact ih hndL hiL

theorem extractOrders_or_perm (l : List Order) (mask i : Nat) (hi : i < l.length)
    (hbit : mask.testBit i = false) :
    (extractOrders (mask ||| (1 <<< i)) l).Perm
      (l.getD i dOrder :: extractOrders mask l) := by
  unfold extractOrders
  have hpred : ((List.range l.length).filter fun j => (mask ||| 1 <<< i).testBit j)
      = ((List.range l.length).filter fun j => mask.testBit j || decide (j = i)) := by
    apply List.filter_congr
    intro j _
    rw [testBit_or_shiftLeft]
    simp [eq_comm]
  rw [hpred]
  exact (filter_or_eq_perm (List.range l.length) (List.nodup_range _) i
    (List.mem_range.mpr hi) (fun j => mask.testBit j) hbit).map _

theorem sumPayout_extract_or (l : List Order) (mask i : Nat) (hi : i < l.length)
    (hbit : mask.testBit i = false) :
    sumPayout (extractOrders (mask ||| (1 <<< i)) l)
      = (l.getD i dOrder).payout + sumPayout (extractOrders mask l) := by
  rw [sumPayout_perm (extractOrders_or_perm l mask i hi hbit)]
  simp

theorem sumWeight_extract_or (l : List Order) (mask i : Nat) (hi : i < l.length)
    (hbit : mask.testBit i = false) :
    sumWeight (extractOrders (mask ||| (1 <<< i)) l)
      = (l.getD i dOrder).weightLbs + sumWeight (extractOrders mask l) := by
  rw [sumWeight_perm (extractOrders_or_perm l mask i hi hbit)]
  simp

theorem sumVolume_extract_or (l : List Order) (mask i : Nat) (hi : i < l.length)
    (hbit : mask.testBit i = false) :
    sumVolume (extractOrders (mask ||| (1 <<< i)) l)
      = (l.getD i dOrder).volumeCuft + sumVolume (extractOrders mask l) := by
  rw [sumVolume_perm (extractOrders_or_perm l mask i hi hbit)]
  simp

theorem pairwiseCompatible_perm {a b : List Order} (h : a.Perm b) :
    PairwiseCompatible a ↔ PairwiseCompatible b :=
  List.Perm.pairwise_iff (fun hxy => by rw [canCombine_symm]; exact hxy) h

theorem pairwiseCompatible_extract_or (l : List Order) (mask i : Nat) (hi : i < l.length)
    (hbit : mask.testBit i = false)
    (hcompat : ∀ j, j < l.length → mask.testBit j = true →
      canCombine (l.getD i dOrder) (l.getD j dOrder) = true)
    (hpw : PairwiseCompatible (extractOrders mask l)) :
    PairwiseCompatible (extractOrders (mask ||| (1 <<< i)) l) := by
  rw [pairwiseCompatible_perm (extractOrders_or_perm l mask i hi hbit)]
  refine List.Pairwise.cons ?_ hpw
  intro x hx
  obtain ⟨j, hj, hb, rfl⟩ := mem_extractOrders.mp hx
  exact hcompat j hj hb

theorem compat_of_pairwise_extract {l : List Order} {mask : Nat}
    (h : PairwiseCompatible (extractOrders mask l))
    {p q : Nat} (hp : p < l.length) (hq : q < l.length) (hne : p ≠ q)
    (hbp : mask.testBit p = true) (hbq : mask.testBit q = true) :
    canCombine (l.getD p dOrder) (l.getD q dOrder) = true := by
  unfold extractOrders PairwiseCompatible at h
  rw [List.pairwise_map] at h
  have hsym : Symmetric (fun a b : Nat =>
      canCombine (l.getD a dOrder) (l.getD b dOrder) = true) := by
    intro a b hab
    rw [canCombine_symm]
    exact hab
  refine h.forall hsym ?_ ?_ hne
  · exact List.mem_filter.mpr ⟨List.mem_range.mpr hp, hbp⟩
  · exact List.mem_filter.mpr ⟨List.mem_range.mpr hq, hbq⟩

theorem extractOrders_cons (mask : Nat) (o : Order) (l : List Order) :
    extractOrders mask (o :: l)
      = (if mask.testBit 0 then [o] else []) ++ extractOrders (mask / 2) l := by
  unfold extractOrders
  have hlen : (o :: l).length = l.length + 1 := rfl
  rw [hlen, List.range_succ_eq_map, List.filter_cons, List.filter_map]
  have hps : (List.filter ((fun i => mask.testBit i) ∘ Nat.succ) (List.range l.length))
      = (List.range l.length).filter (fun j => (mask / 2).testBit j) := by
    apply List.filter_congr
    intro j _
    simp [Function.comp, Nat.testBit_succ]
  rw [hps]
  have hmaps : ∀ F : List Nat,
      (F.map Nat.succ).map (fun i => (o :: l).getD i dOrder)
        = F.map (fun i => l.getD i dOrder) := by
    intro F
    rw [List.map_map]
    apply List.map_congr_left
    intro j _
    simp [Function.comp]
  by_cases h0 : mask.testBit 0
  · simp only [h0, if_pos, List.map_cons, List.getD_cons_zero, List.singleton_append]
    rw [hmaps]
  · simp only [h0, Bool.false_eq_true, if_neg, not_false_iff, List.nil_append]
    rw [hmaps]

theorem extractOrders_sublist (mask : Nat) (l : List Order) :
    (extractOrders mask l).Sublist l := by
  induction l generalizing mask with
  | nil => simp [extractOrders]
  | cons o l ih =>
    rw [extractOrders_cons]
    by_cases h : mask.testBit 0
    · simpa [h] using (ih (mask / 2)).cons₂ o
    · simpa [h] using (ih (mask / 2)).cons o

theorem sublist_eq_extractOrders {S l : List Order} (h : S.Sublist l) :
    ∃ mask, mask < 2 ^ l.length ∧ extractOrders mask l = S := by
  induction h with
  | slnil => exact ⟨0, by norm_num, rfl⟩
  | @cons l₁ l₂ o h ih =>
    obtain ⟨m, hm, he⟩ := ih
    refine ⟨2 * m, ?_, ?_⟩
    · have : 2 ^ (o :: l₂).length = 2 * 2 ^ l₂.length := by
        simp [List.length_cons, Nat.pow_succ, Nat.mul_comm]
      omega
    · rw [extractOrders_cons]
      have hb : (2 * m).testBit 0 = false := by
        simp [Nat.testBit_zero, Nat.mul_mod_right]
      have hd : 2 * m / 2 = m := by omega
      rw [hb, hd]
      simpa using he
  | @cons₂ l₁ l₂ o h ih =>
    obtain ⟨m, hm, he⟩ := ih
    refine ⟨2 * m + 1, ?_, ?_⟩
    · have : 2 ^ (o :: l₂).length = 2 * 2 ^ l₂.length := by
        simp [List.length_cons, Nat.pow_succ, Nat.mul_comm]
      omega
    · rw [extractOrders_cons]
      have hb : (2 * m + 1).testBit 0 = true := by
        simp [Nat.testBit_zero, Nat.mul_add_mod]
      have hd : (2 * m + 1) / 2 = m := by omega
      rw [hb, hd]
      simpa using he

/-! The density "sort" is a permutation. -/

theorem swapIdx_set_cons_perm (xs : List Order) (k : Nat) (x : Order)
    (hk : k < xs.length) :
    (xs.getD k dOrder :: xs.set k x).Perm (x :: xs) := by
  induction xs generalizing k with
  | nil => cases hk
  | cons y ys ih =>
    cases k with
    | zero =>
      simp only [List.getD_cons_zero, List.set_cons_zero]
      exact List.Perm.swap x y ys
    | succ k =>
      simp only [List.getD_cons_succ, List.set_cons_succ]
      have hk' : k < ys.length := Nat.lt_of_succ_lt_succ hk
      refine List.Perm.trans (List.Perm.swap y _ _) ?_
      refine List.Perm.trans ((ih k hk').cons y) ?_
      exact List.Perm.swap x y ys

theorem swapIdx_perm_le (l : List Order) (i j : Nat) (hij : i ≤ j) (hj : j < l.length) :
    (swapIdx l i j).Perm l := by
  induction l generalizing i j with
  | nil => cases hj
  | cons x xs ih =>
    cases i with
    | zero =>
      cases j with
      | zero =>
        simp [swapIdx]
      | succ j' =>
        have hj' : j' < xs.length := Nat.lt_of_succ_lt_succ hj
        unfold swapIdx
        simp only [List.getD_cons_succ, List.getD_cons_zero, List.set_cons_zero,
          List.set_cons_succ]
        exact swapIdx_set_cons_perm xs j' x hj'
    | succ i' =>
      cases j with
      | zero => cases hij
      | succ j' =>
        have hij' : i' ≤ j' := Nat.le_of_succ_le_succ hij
        have hj' : j' < xs.length := Nat.lt_of_succ_lt_succ hj
        unfold swapIdx
        simp only [List.getD_cons_succ, List.set_cons_succ]
        exact (ih i' j' hij' hj').cons x

theorem swapIdx_perm (l : List Order) (i j : Nat) (hi : i < l.length) (hj : j < l.length) :
    (swapIdx l i j).Perm l := by
  rcases Nat.le_total i j with h | h
  · exact swapIdx_perm_le l i j h hj
  · rcases Nat.eq_or_lt_of_le h with heq | hlt
    · subst heq
      exact swapIdx_perm_le l j j (Nat.le_refl j) hj
    · have : swapIdx l i j = swapIdx l j i := by
        unfold swapIdx
        rw [List.set_comm _ _ _ (Nat.ne_of_gt hlt)]
      rw [this]
      exact swapIdx_perm_le l j i (Nat.le_of_lt hlt) hi

theorem sortByValueDensity_perm (orders : List Order) :
    (sortByValueDensity orders).Perm orders := by
  unfold sortByValueDensity
  have inner : ∀ (i : Nat) (js : List Nat) (acc : List Order),
      (∀ j ∈ js, j < orders.length) → acc.Perm orders →
      (js.foldl (fun acc2 j =>
        if i < j ∧ Frac.lt (density (acc2.getD i dOrder)) (density (acc2.getD j dOrder))
        then swapIdx acc2 i j else acc2) acc).Perm orders := by
    intro i js
    induction js with
    | nil => intro acc _ hacc; exact hacc
    | cons j js ih =>
      intro acc hbound hacc
      simp only [List.foldl_cons]
      apply ih _ (fun x hx => hbound x (List.mem_cons_of_mem j hx))
      by_cases hc : i < j ∧ Frac.lt (density (acc.getD i dOrder)) (density (acc.getD j dOrder))
      · rw [if_pos hc]
        have hjlen : j < acc.length := by
          rw [hacc.length_eq]
          exact hbound j (List.mem_cons_self j js)
        have hilen : i < acc.length := Nat.lt_trans hc.1 hjlen
        exact (swapIdx_perm acc i j hilen hjlen).trans hacc
      · rw [if_neg hc]
        exact hacc
  have outer : ∀ (is : List Nat) (acc : List Order), acc.Perm orders →
      (is.foldl (fun acc i =>
        (List.range orders.length).foldl (fun acc2 j =>
          if i < j ∧ Frac.lt (density (acc2.getD i dOrder)) (density (acc2.getD j dOrder))
          then swapIdx acc2 i j else acc2) acc) acc).Perm orders := by
    intro is
    induction is with
    | nil => intro acc hacc; exact hacc
    | cons i is ih =>
      intro acc hacc
      simp only [List.foldl_cons]
      exact ih _ (inner i (List.range orders.length) acc
        (fun j hj => List.mem_range.mp hj) hacc)
  exact outer _ orders (List.Perm.refl orders)

/-! The greedy acceptance scan. -/

/-- Capacity of an accepted greedy/backtracking selection: empty, or within
both truck limits. -/
def CapsOK (t : Truck) (sel : List Order) : Prop :=
  sel = [] ∨ (sumWeight sel ≤ t.maxWeightLbs ∧ sumVolume sel ≤ t.maxVolumeCuft)

theorem greedy_fold_spec (t : Truck) (L : List Order) :
    ∀ (sel : List Order),
      PairwiseCompatible sel → CapsOK t sel →
      ∃ T, T.Sublist L ∧
        L.foldl (greedyStep t) (sel, sumWeight sel, sumVolume sel, sumPayout sel)
          = (sel ++ T, sumWeight (sel ++ T), sumVolume (sel ++ T), sumPayout (sel ++ T)) ∧
        PairwiseCompatible (sel ++ T) ∧ CapsOK t (sel ++ T) := by
  induction L with
  | nil =>
    intro sel hpw hcaps
    exact ⟨[], List.Sublist.refl [], by simp, by simpa using hpw, by simpa using hcaps⟩
  | cons o L ih =>
    intro sel hpw hcaps
    simp only [List.foldl_cons]
    by_cases hfit : canFit t (sumWeight sel) (sumVolume sel) o = false
    · have hstep : greedyStep t (sel, sumWeight sel, sumVolume sel, sumPayout sel) o
          = (sel, sumWeight sel, sumVolume sel, sumPayout sel) := by
        unfold greedyStep
        rw [if_pos hfit]
      rw [hstep]
      obtain ⟨T, hT, heq, hp, hc⟩ := ih sel hpw hcaps
      exact ⟨T, hT.cons o, heq, hp, hc⟩
    · have hfit' : canFit t (sumWeight sel) (sumVolume sel) o = true := by
        cases h : canFit t (sumWeight sel) (sumVolume sel) o
        · exact absurd h hfit
        · rfl
      by_cases hall : sel.all (fun s => canCombine o s) = true
      · have hstep : greedyStep t (sel, sumWeight sel, sumVolume sel, sumPayout sel) o
            = (sel ++ [o], sumWeight sel + o.weightLbs, sumVolume sel + o.volumeCuft,
               sumPayout sel + o.payout) := by
          unfold greedyStep
          rw [if_neg hfit, if_pos hall]
        have hpw2 : PairwiseCompatible (sel ++ [o]) := by
          unfold PairwiseCompatible at hpw ⊢
          rw [List.pairwise_append]
          refine ⟨hpw, List.pairwise_singleton _ _, ?_⟩
          intro a ha b hb
          rw [List.mem_singleton] at hb
          subst hb
          rw [canCombine_symm]
          exact List.all_eq_true.mp hall a ha
        have hcapfits := hfit'
        rw [canFit, Bool.and_eq_true, decide_eq_true_eq, decide_eq_true_eq] at hcapfits
        have hcaps2 : CapsOK t (sel ++ [o]) := by
          right
          constructor
          · simpa using hcapfits.1
          · simpa using hcapfits.2
        obtain ⟨T', hT', heq', hp', hc'⟩ := ih (sel ++ [o]) hpw2 hcaps2
        refine ⟨o :: T', hT'.cons₂ o, ?_, ?_, ?_⟩
        · rw [hstep]
          have e1 : sumWeight (sel ++ [o]) = sumWeight sel + o.weightLbs := by simp
          have e2 : sumVolume (sel ++ [o]) = sumVolume sel + o.volumeCuft := by simp
          have e3 : sumPayout (sel ++ [o]) = sumPayout sel + o.payout := by simp
          rw [← e1, ← e2, ← e3, heq']
          simp [List.append_assoc]
        · have : sel ++ o :: T' = (sel ++ [o]) ++ T' := by simp [List.append_assoc]
          rw [this]
          exact hp'
        · have : sel ++ o :: T' = (sel ++ [o]) ++ T' := by simp [List.append_assoc]
          rw [this]
          exact hc'
      · have hstep : greedyStep t (sel, sumWeight sel, sumVolume sel, sumPayout sel) o
            = (sel, sumWeight sel, sumVolume sel, sumPayout sel) := by
          unfold greedyStep
          rw [if_neg hfit, if_neg hall]
        rw [hstep]
        obtain ⟨T, hT, heq, hp, hc⟩ := ih sel hpw hcaps
        exact ⟨T, hT.cons o, heq, hp, hc⟩

/-! DP table invariants. -/

theorem foldl_induction {α β : Type _} {P : β → Prop} (f : β → α → β) (L : List α) (init : β)
    (h0 : P init) (hstep : ∀ acc a, a ∈ L → P acc → P (f acc a)) : P (L.foldl f init) := by
  induction L generalizing init with
  | nil => exact h0
  | cons a L ih =>
    exact ih (f init a) (hstep init a (List.mem_cons_self a L) h0)
      (fun acc x hx hP => hstep acc x (List.mem_cons_of_mem a hx) hP)

/-- Every valid entry of a DP table is a reachable, capacity-respecting,
pairwise-compatible subset with totals equal to the subset sums
(mask 0 is pre-seeded, so its capacity is not checked by the sweep). -/
def TblOK (t : Truck) (l : List Order) (tbl : DPTable) : Prop :=
  ∀ m, tbl.valid m = true →
    m < 2 ^ l.length ∧
    tbl.payout m = sumPayout (extractOrders m l) ∧
    tbl.weight m = sumWeight (extractOrders m l) ∧
    tbl.volume m = sumVolume (extractOrders m l) ∧
    PairwiseCompatible (extractOrders m l) ∧
    (m ≠ 0 → sumWeight (extractOrders m l) ≤ t.maxWeightLbs ∧
             sumVolume (extractOrders m l) ≤ t.maxVolumeCuft)

theorem dpInit_TblOK (t : Truck) (l : List Order) : TblOK t l dpInit := by
  intro m hm
  simp only [dpInit, decide_eq_true_eq] at hm
  subst hm
  refine ⟨Nat.pos_pow_of_pos _ (by norm_num), ?_, ?_, ?_, ?_, ?_⟩ <;>
    simp [dpInit, extractOrders_zero, PairwiseCompatible]

theorem dpExtend_frame (t : Truck) (l : List Order) (inc : Nat → Nat) (mask : Nat)
    (cw cv : Int) (tbl : DPTable) (i : Nat) (x : Nat) (hx : x ≤ mask) :
    (dpExtend t l inc mask cw cv tbl i).payout x = tbl.payout x ∧
    (dpExtend t l inc mask cw cv tbl i).weight x = tbl.weight x ∧
    (dpExtend t l inc mask cw cv tbl i).volume x = tbl.volume x ∧
    (dpExtend t l inc mask cw cv tbl i).valid x = tbl.valid x := by
  simp only [dpExtend]
  by_cases h1 : mask.testBit i = true
  · simp [h1]
  · rw [if_neg h1]
    by_cases h2 : mask &&& inc i ≠ 0
    · rw [if_pos h2]
      exact ⟨rfl, rfl, rfl, rfl⟩
    · rw [if_neg h2]
      by_cases h3 : cw + (l.getD i dOrder).weightLbs > t.maxWeightLbs ∨
          cv + (l.getD i dOrder).volumeCuft > t.maxVolumeCuft
      · rw [if_pos h3]
        exact ⟨rfl, rfl, rfl, rfl⟩
      · rw [if_neg h3]
        have hbit : mask.testBit i = false := Bool.eq_false_iff.mpr h1
        have hne : x ≠ mask ||| 1 <<< i :=
          Nat.ne_of_lt (Nat.lt_of_le_of_lt hx (lt_or_shiftLeft mask i hbit))
        by_cases h4 : tbl.valid (mask ||| 1 <<< i) = false ∨
            tbl.payout mask + (l.getD i dOrder).payout > tbl.payout (mask ||| 1 <<< i)
        · rw [if_pos h4]
          refine ⟨?_, ?_, ?_, ?_⟩ <;> exact if_neg hne
        · rw [if_neg h4]
          exact ⟨rfl, rfl, rfl, rfl⟩

theorem dpExtend_valid_mono (t : Truck) (l : List Order) (inc : Nat → Nat) (mask : Nat)
    (cw cv : Int) (tbl : DPTable) (i : Nat) (x : Nat) (hx : tbl.valid x = true) :
    (dpExtend t l inc mask cw cv tbl i).valid x = true := by
  simp only [dpExtend]
  by_cases h1 : mask.testBit i = true
  · simp [h1, hx]
  · rw [if_neg h1]
    by_cases h2 : mask &&& inc i ≠ 0
    · rw [if_pos h2]; exact hx
    · rw [if_neg h2]
      by_cases h3 : cw + (l.getD i dOrder).weightLbs > t.maxWeightLbs ∨
          cv + (l.getD i dOrder).volumeCuft > t.maxVolumeCuft
      · rw [if_pos h3]; exact hx
      · rw [if_neg h3]
        by_cases h4 : tbl.valid (mask ||| 1 <<< i) = false ∨
            tbl.payout mask + (l.getD i dOrder).payout > tbl.payout (mask ||| 1 <<< i)
        · rw [if_pos h4]
          by_cases hx2 : x = mask ||| 1 <<< i
          · simp [hx2]
          · simp only [DPTable.valid]
            rw [if_neg hx2]
            exact hx
        · rw [if_neg h4]; exact hx

theorem dpExtend_TblOK (t : Truck) (l : List Order) (mask : Nat)
    (cw cv : Int) (tbl : DPTable) (i : Nat) (hi : i < l.length)
    (hTbl : TblOK t l tbl) (hvalid : tbl.valid mask = true)
    (hcw : cw = sumWeight (extractOrders mask l))
    (hcv : cv = sumVolume (extractOrders mask l)) :
    TblOK t l (dpExtend t l (incompatMask l) mask cw cv tbl i) := by
  simp only [dpExtend]
  by_cases h1 : mask.testBit i = true
  · simp [h1, hTbl]
  · rw [if_neg h1]
    by_cases h2 : mask &&& incompatMask l i ≠ 0
    · rw [if_pos h2]; exact hTbl
    · rw [if_neg h2]
      by_cases h3 : cw + (l.getD i dOrder).weightLbs > t.maxWeightLbs ∨
          cv + (l.getD i dOrder).volumeCuft > t.maxVolumeCuft
      · rw [if_pos h3]; exact hTbl
      · rw [if_neg h3]
        by_cases h4 : tbl.valid (mask ||| 1 <<< i) = false ∨
            tbl.payout mask + (l.getD i dOrder).payout > tbl.payout (mask ||| 1 <<< i)
        swap
        · rw [if_neg h4]; exact hTbl
        rw [if_pos h4]
        have hbit : mask.testBit i = false := Bool.eq_false_iff.mpr h1
        have hmlt := (hTbl mask hvalid).1
        have hnew_lt : mask ||| 1 <<< i < 2 ^ l.length := by
          apply Nat.or_lt_two_pow hmlt
          rw [Nat.one_shiftLeft]
          exact Nat.pow_lt_pow_right (by norm_num) hi
        have hpay := (hTbl mask hvalid).2.1
        have hcompat : ∀ j, j < l.length → mask.testBit j = true →
            canCombine (l.getD i dOrder) (l.getD j dOrder) = true := by
          intro j hj hbj
          have hz : mask &&& incompatMask l i = 0 := by omega
          have := (and_eq_zero_iff_testBit mask (incompatMask l i)).mp hz j hbj
          by_cases hne : i = j
          · subst hne
            rw [hbit] at hbj
            cases hbj
          · cases hcc : canCombine (l.getD i dOrder) (l.getD j dOrder)
            · exact absurd ((incompatMask_testBit l i j).mpr ⟨hj, hne, hcc⟩)
                (by rw [this]; exact Bool.false_ne_true)
            · rfl
        have hsumP := sumPayout_extract_or l mask i hi hbit
        have hsumW := sumWeight_extract_or l mask i hi hbit
        have hsumV := sumVolume_extract_or l mask i hi hbit
        intro m hm
        by_cases hmm : m = mask ||| 1 <<< i
        · subst hmm
          refine ⟨hnew_lt, ?_, ?_, ?_, ?_, ?_⟩
          · simp only [DPTable.payout, if_true, eq_self_iff_true]
            rw [hsumP, hpay]
            ring
          · simp only [DPTable.weight, if_true, eq_self_iff_true]
            rw [hsumW, hcw]
            ring
          · simp only [DPTable.volume, if_true, eq_self_iff_true]
            rw [hsumV, hcv]
            ring
          · exact pairwiseCompatible_extract_or l mask i hi hbit hcompat
              (hTbl mask hvalid).2.2.2.2.1
          · intro _
            push_neg at h3
            constructor
            · rw [hsumW, hcw] at *
              omega
            · rw [hsumV, hcv] at *
              omega
        · simp only [DPTable.payout, DPTable.weight, DPTable.volume, DPTable.valid] at hm ⊢
          rw [if_neg hmm] at hm
          rw [if_neg hmm, if_neg hmm, if_neg hmm]
          exact hTbl m hm

theorem dpProcessMask_frame (t : Truck) (l : List Order) (inc : Nat → Nat)
    (tbl : DPTable) (mask x : Nat) (hx : x ≤ mask) :
    (dpProcessMask t l inc tbl mask).payout x = tbl.payout x ∧
    (dpProcessMask t l inc tbl mask).weight x = tbl.weight x ∧
    (dpProcessMask t l inc tbl mask).volume x = tbl.volume x ∧
    (dpProcessMask t l inc tbl mask).valid x = tbl.valid x := by
  unfold dpProcessMask
  by_cases hvv : tbl.valid mask = true
  · rw [if_pos hvv]
    refine foldl_induction
      (P := fun acc : DPTable => acc.payout x = tbl.payout x ∧ acc.weight x = tbl.weight x ∧
        acc.volume x = tbl.volume x ∧ acc.valid x = tbl.valid x) _ _ _
      ⟨rfl, rfl, rfl, rfl⟩ ?_
    intro acc a _ hP
    obtain ⟨e1, e2, e3, e4⟩ :=
      dpExtend_frame t l inc mask (tbl.weight mask) (tbl.volume mask) acc a x hx
    exact ⟨e1.trans hP.1, e2.trans hP.2.1, e3.trans hP.2.2.1, e4.trans hP.2.2.2⟩
  · rw [if_neg hvv]
    exact ⟨rfl, rfl, rfl, rfl⟩

theorem dpProcessMask_valid_mono (t : Truck) (l : List Order) (inc : Nat → Nat)
    (tbl : DPTable) (mask x : Nat) (hx : tbl.valid x = true) :
    (dpProcessMask t l inc tbl mask).valid x = true := by
  unfold dpProcessMask
  by_cases hvv : tbl.valid mask = true
  · rw [if_pos hvv]
    refine foldl_induction (P := fun acc : DPTable => acc.valid x = true) _ _ _ hx ?_
    intro acc a _ hP
    exact dpExtend_valid_mono t l inc mask _ _ acc a x hP
  · rw [if_neg hvv]
    exact hx

theorem dpProcessMask_TblOK (t : Truck) (l : List Order) (tbl : DPTable) (mask : Nat)
    (hTbl : TblOK t l tbl) :
    TblOK t l (dpProcessMask t l (incompatMask l) tbl mask) := by
  unfold dpProcessMask
  by_cases hvv : tbl.valid mask = true
  swap
  · rw [if_neg hvv]
    exact hTbl
  rw [if_pos hvv]
  have hcw : tbl.weight mask = sumWeight (extractOrders mask l) := (hTbl mask hvv).2.2.1
  have hcv : tbl.volume mask = sumVolume (extractOrders mask l) := (hTbl mask hvv).2.2.2.1
  exact (foldl_induction
    (P := fun acc : DPTable => TblOK t l acc ∧ acc.valid mask = true) _ _ _
    ⟨hTbl, hvv⟩ (fun acc a ha hP =>
      ⟨dpExtend_TblOK t l mask _ _ acc a (List.mem_range.mp ha) hP.1 hP.2 hcw hcv,
       dpExtend_valid_mono t l (incompatMask l) mask _ _ acc a mask hP.2⟩)).1

/-- The DP sweep stopped after the first `k` masks. -/
def dpPartial (t : Truck) (l : List Order) (k : Nat) : DPTable :=
  (List.range k).foldl (dpProcessMask t l (incompatMask l)) dpInit

theorem dpPartial_succ (t : Truck) (l : List Order) (k : Nat) :
    dpPartial t l (k + 1) = dpProcessMask t l (incompatMask l) (dpPartial t l k) k := by
  unfold dpPartial
  rw [List.range_succ, List.foldl_append]
  rfl

theorem dpTable_eq_prefixTbl (t : Truck) (l : List Order) :
    dpTable t l = dpPartial t l (2 ^ l.length) := rfl

theorem dpPartial_TblOK (t : Truck) (l : List Order) (k : Nat) :
    TblOK t l (dpPartial t l k) := by
  unfold dpPartial
  refine foldl_induction _ _ _ (dpInit_TblOK t l) ?_
  intro acc a _ h
  exact dpProcessMask_TblOK t l acc a h

theorem dpTable_TblOK (t : Truck) (l : List Order) : TblOK t l (dpTable t l) := by
  rw [dpTable_eq_prefixTbl]
  exact dpPartial_TblOK t l _

theorem dpPartial_le_frame (t : Truck) (l : List Order) (k k2 x : Nat)
    (hk : k ≤ k2) (hx : x ≤ k) :
    (dpPartial t l k2).payout x = (dpPartial t l k).payout x ∧
    (dpPartial t l k2).weight x = (dpPartial t l k).weight x ∧
    (dpPartial t l k2).volume x = (dpPartial t l k).volume x ∧
    (dpPartial t l k2).valid x = (dpPartial t l k).valid x := by
  obtain ⟨r, rfl⟩ := Nat.exists_eq_add_of_le hk
  unfold dpPartial
  rw [List.range_add, List.foldl_append]
  refine foldl_induction
    (P := fun acc : DPTable =>
      acc.payout x = (dpPartial t l k).payout x ∧
      acc.weight x = (dpPartial t l k).weight x ∧
      acc.volume x = (dpPartial t l k).volume x ∧
      acc.valid x = (dpPartial t l k).valid x) _ _ _
    ⟨rfl, rfl, rfl, rfl⟩ ?_
  intro acc a ha hP
  obtain ⟨j, _, rfl⟩ := List.mem_map.mp ha
  have hxa : x ≤ k + j := by omega
  obtain ⟨e1, e2, e3, e4⟩ := dpProcessMask_frame t l (incompatMask l) acc (k + j) x hxa
  exact ⟨e1.trans hP.1, e2.trans hP.2.1, e3.trans hP.2.2.1, e4.trans hP.2.2.2⟩

theorem dpPartial_valid_mono (t : Truck) (l : List Order) (k k2 x : Nat)
    (hk : k ≤ k2) (hx : (dpPartial t l k).valid x = true) :
    (dpPartial t l k2).valid x = true := by
  obtain ⟨r, rfl⟩ := Nat.exists_eq_add_of_le hk
  unfold dpPartial
  rw [List.range_add, List.foldl_append]
  refine foldl_induction (P := fun acc : DPTable => acc.valid x = true) _ _ _ hx ?_
  intro acc a _ hP
  exact dpProcessMask_valid_mono t l (incompatMask l) acc a x hP

theorem dpTable_valid_of_prefixTbl (t : Truck) (l : List Order) (k x : Nat)
    (hk : k ≤ 2 ^ l.length) (hx : (dpPartial t l k).valid x = true) :
    (dpTable t l).valid x = true := by
  rw [dpTable_eq_prefixTbl]
  exact dpPartial_valid_mono t l k _ x hk hx

theorem dpExtend_fold_valid (t : Truck) (l : List Order) (mask : Nat) (cw cv : Int)
    (L : List Nat) (tbl : DPTable) (i : Nat) (hiL : i ∈ L)
    (hbit : mask.testBit i = false)
    (hinc : mask &&& incompatMask l i = 0)
    (hcap : ¬(cw + (l.getD i dOrder).weightLbs > t.maxWeightLbs ∨
              cv + (l.getD i dOrder).volumeCuft > t.maxVolumeCuft)) :
    ((L.foldl (dpExtend t l (incompatMask l) mask cw cv) tbl).valid (mask ||| 1 <<< i))
      = true := by
  induction L generalizing tbl with
  | nil => cases hiL
  | cons a L ih =>
    simp only [List.foldl_cons]
    rcases List.mem_cons.mp hiL with heq | hmem
    · subst heq
      have hstep : (dpExtend t l (incompatMask l) mask cw cv tbl i).valid
          (mask ||| 1 <<< i) = true := by
        simp only [dpExtend]
        rw [if_neg (by rw [hbit]; exact Bool.false_ne_true)]
        rw [if_neg (by omega)]
        rw [if_neg hcap]
        by_cases h4 : tbl.valid (mask ||| 1 <<< i) = false ∨
            tbl.payout mask + (l.getD i dOrder).payout > tbl.payout (mask ||| 1 <<< i)
        · rw [if_pos h4]
          simp
        · rw [if_neg h4]
          push_neg at h4
          cases hvb : tbl.valid (mask ||| 1 <<< i)
          · exact absurd hvb h4.1
          · rfl
      exact foldl_induction (P := fun acc : DPTable =>
          acc.valid (mask ||| 1 <<< i) = true) _ L _ hstep
        (fun acc a _ h => dpExtend_valid_mono t l (incompatMask l) mask cw cv acc a _ h)
    · exact ih _ hmem

/-- A reachable state of the sweep: within range, pairwise-compatible,
and within both capacities. -/
def FeasibleMask (t : Truck) (l : List Order) (m : Nat) : Prop :=
  m < 2 ^ l.length ∧ PairwiseCompatible (extractOrders m l) ∧
  sumWeight (extractOrders m l) ≤ t.maxWeightLbs ∧
  sumVolume (extractOrders m l) ≤ t.maxVolumeCuft

theorem dpTable_complete (t : Truck) (l : List Order)
    (hw : ∀ o ∈ l, 0 ≤ o.weightLbs) (hvo : ∀ o ∈ l, 0 ≤ o.volumeCuft) :
    ∀ m, FeasibleMask t l m → (dpTable t l).valid m = true := by
  intro m
  induction m using Nat.strong_induction_on with
  | _ m ih =>
    intro hfm
    by_cases hm0 : m = 0
    · subst hm0
      have h0 : (dpPartial t l 0).valid 0 = true := by
        simp [dpPartial, dpInit]
      exact dpTable_valid_of_prefixTbl t l 0 0 (Nat.zero_le _) h0
    · obtain ⟨i, hbi⟩ := exists_testBit_of_ne_zero hm0
      have hin : i < l.length := by
        by_contra hni
        rw [testBit_false_of_ge hfm.1 (Nat.le_of_not_lt hni)] at hbi
        cases hbi
      have hgd : l.getD i dOrder ∈ l := by
        rw [List.getD_eq_getElem l dOrder hin]
        exact List.getElem_mem hin
      have hb' : ∀ j, (m ^^^ (1 <<< i)).testBit j
          = if j = i then false else m.testBit j := by
        intro j
        rw [Nat.testBit_xor, testBit_one_shiftLeft]
        by_cases hj : j = i
        · subst hj
          simp [hbi]
        · have hd : decide (i = j) = false := by
            simp only [decide_eq_false_iff_not]
            exact fun h => hj h.symm
          rw [if_neg hj, hd, Bool.xor_false]
      have hbit' : (m ^^^ (1 <<< i)).testBit i = false := by
        rw [hb']
        simp
      have hor : (m ^^^ (1 <<< i)) ||| 1 <<< i = m := by
        apply Nat.eq_of_testBit_eq
        intro j
        rw [testBit_or_shiftLeft, hb']
        by_cases hj : j = i
        · subst hj
          simp [hbi]
        · have hd : decide (i = j) = false := by
            simp only [decide_eq_false_iff_not]
            exact fun h => hj h.symm
          rw [if_neg hj, hd, Bool.or_false]
      have hlt : (m ^^^ (1 <<< i)) < m := by
        apply Nat.lt_of_testBit i hbit' hbi
        intro j hj
        rw [hb', if_neg (Nat.ne_of_gt hj)]
      have hperm : (extractOrders m l).Perm
          (l.getD i dOrder :: extractOrders (m ^^^ (1 <<< i)) l) := by
        conv_lhs => rw [← hor]
        exact extractOrders_or_perm l _ i hin hbit'
      have hpw' : PairwiseCompatible (extractOrders (m ^^^ (1 <<< i)) l) :=
        ((pairwiseCompatible_perm hperm).mp hfm.2.1).of_cons
      have hWm : sumWeight (extractOrders m l)
          = (l.getD i dOrder).weightLbs + sumWeight (extractOrders (m ^^^ (1 <<< i)) l) := by
        rw [sumWeight_perm hperm]
        simp
      have hVm : sumVolume (extractOrders m l)
          = (l.getD i dOrder).volumeCuft + sumVolume (extractOrders (m ^^^ (1 <<< i)) l) := by
        rw [sumVolume_perm hperm]
        simp
      have hfm' : FeasibleMask t l (m ^^^ (1 <<< i)) := by
        refine ⟨Nat.lt_trans hlt hfm.1, hpw', ?_, ?_⟩
        · have := hw _ hgd
          have h2 := hfm.2.2.1
          omega
        · have := hvo _ hgd
          have h2 := hfm.2.2.2
          omega
      have hvalid' : (dpTable t l).valid (m ^^^ (1 <<< i)) = true := ih _ hlt hfm'
      have hm'lt : m ^^^ (1 <<< i) < 2 ^ l.length := Nat.lt_trans hlt hfm.1
      have hpm' : (dpPartial t l (m ^^^ (1 <<< i))).valid (m ^^^ (1 <<< i)) = true := by
        have e4 := (dpPartial_le_frame t l (m ^^^ (1 <<< i)) (2 ^ l.length)
          (m ^^^ (1 <<< i)) (by omega) (by omega)).2.2.2
        rw [dpTable_eq_prefixTbl, e4] at hvalid'
        exact hvalid'
      have hok := dpPartial_TblOK t l (m ^^^ (1 <<< i))
      have hcw := (hok _ hpm').2.2.1
      have hcv := (hok _ hpm').2.2.2.1
      have hinc : (m ^^^ (1 <<< i)) &&& incompatMask l i = 0 := by
        rw [and_eq_zero_iff_testBit]
        intro j hbj'
        have hji : j ≠ i := by
          intro h
          rw [h, hbit'] at hbj'
          cases hbj'
        have hbj : m.testBit j = true := by
          rw [hb' j, if_neg hji] at hbj'
          exact hbj'
        cases hbit_inc : (incompatMask l i).testBit j
        · rfl
        · obtain ⟨hjlen, hne, hcc⟩ := (incompatMask_testBit l i j).mp hbit_inc
          have hcompat := compat_of_pairwise_extract hfm.2.1 hin hjlen hne hbi hbj
          rw [hcompat] at hcc
          cases hcc
      have hcap : ¬((dpPartial t l (m ^^^ (1 <<< i))).weight (m ^^^ (1 <<< i))
            + (l.getD i dOrder).weightLbs > t.maxWeightLbs ∨
          (dpPartial t l (m ^^^ (1 <<< i))).volume (m ^^^ (1 <<< i))
            + (l.getD i dOrder).volumeCuft > t.maxVolumeCuft) := by
        push_neg
        rw [hcw, hcv]
        have h1 := hfm.2.2.1
        have h2 := hfm.2.2.2
        omega
      have hreach : (dpPartial t l ((m ^^^ (1 <<< i)) + 1)).valid m = true := by
        rw [dpPartial_succ]
        unfold dpProcessMask
        rw [if_pos hpm']
        have hfold := dpExtend_fold_valid t l (m ^^^ (1 <<< i))
          ((dpPartial t l (m ^^^ (1 <<< i))).weight (m ^^^ (1 <<< i)))
          ((dpPartial t l (m ^^^ (1 <<< i))).volume (m ^^^ (1 <<< i)))
          (List.range l.length) (dpPartial t l (m ^^^ (1 <<< i))) i
          (List.mem_range.mpr hin) hbit' hinc hcap
        rwa [hor] at hfold
      exact dpTable_valid_of_prefixTbl t l _ m (by omega) hreach

theorem dpBest_spec (tbl : DPTable) (h0v : tbl.valid 0 = true) (h0p : tbl.payout 0 = 0) :
    ∀ N, 1 ≤ N →
    tbl.valid (dpBest tbl N).2 = true ∧
    tbl.payout (dpBest tbl N).2 = (dpBest tbl N).1 ∧
    (dpBest tbl N).2 < N ∧
    (∀ m, m < N → tbl.valid m = true → tbl.payout m ≤ (dpBest tbl N).1) ∧
    (∀ m, m < (dpBest tbl N).2 → tbl.valid m = true → tbl.payout m < (dpBest tbl N).1) := by
  intro N
  induction N with
  | zero => omega
  | succ k ih =>
    intro _
    have hstep : dpBest tbl (k + 1)
        = (if tbl.valid k = true ∧ tbl.payout k > (dpBest tbl k).1
           then (tbl.payout k, k) else dpBest tbl k) := by
      unfold dpBest
      rw [List.range_succ, List.foldl_append]
      rfl
    by_cases hk : k = 0
    · subst hk
      have h1 : dpBest tbl 1 = (0, 0) := by
        unfold dpBest
        have : List.range 1 = [0] := rfl
        rw [this]
        simp only [List.foldl_cons, List.foldl_nil]
        rw [if_neg (by rw [h0p]; omega)]
      rw [h1]
      refine ⟨h0v, h0p, by omega, ?_, by omega⟩
      intro m hm hvm
      have : m = 0 := by omega
      subst this
      rw [h0p]
    · have ihk := ih (by omega)
      rw [hstep]
      by_cases hc : tbl.valid k = true ∧ tbl.payout k > (dpBest tbl k).1
      · rw [if_pos hc]
        refine ⟨hc.1, rfl, by omega, ?_, ?_⟩
        · intro m hm hvm
          rcases Nat.lt_succ_iff_lt_or_eq.mp hm with h | h
          · exact le_of_lt (lt_of_le_of_lt (ihk.2.2.2.1 m h hvm) hc.2)
          · subst h
            exact le_refl _
        · intro m hm hvm
          exact lt_of_le_of_lt (ihk.2.2.2.1 m hm hvm) hc.2
      · rw [if_neg hc]
        have hb2 := ihk.2.2.1
        refine ⟨ihk.1, ihk.2.1, by omega, ?_, ihk.2.2.2.2⟩
        intro m hm hvm
        rcases Nat.lt_succ_iff_lt_or_eq.mp hm with h | h
        · exact ihk.2.2.2.1 m h hvm
        · subst h
          by_contra hgt
          exact hc ⟨hvm, by omega⟩

theorem dpTable_valid_zero (t : Truck) (l : List Order) :
    (dpTable t l).valid 0 = true := by
  apply dpTable_valid_of_prefixTbl t l 0 0 (Nat.zero_le _)
  simp [dpPartial, dpInit]

theorem dpTable_payout_zero (t : Truck) (l : List Order) :
    (dpTable t l).payout 0 = 0 := by
  have := (dpTable_TblOK t l 0 (dpTable_valid_zero t l)).2.1
  rw [this, extractOrders_zero]
  rfl

/-- Executable feasibility test for a mask over the filtered list. -/
def feasibleMaskB (t : Truck) (l : List Order) (m : Nat) : Bool :=
  decide (m < 2 ^ l.length) && validateOrderSet (extractOrders m l) &&
  decide (sumWeight (extractOrders m l) ≤ t.maxWeightLbs) &&
  decide (sumVolume (extractOrders m l) ≤ t.maxVolumeCuft)

theorem feasibleMaskB_iff (t : Truck) (l : List Order) (m : Nat) :
    feasibleMaskB t l m = true ↔ FeasibleMask t l m := by
  unfold feasibleMaskB FeasibleMask
  rw [Bool.and_eq_true, Bool.and_eq_true, Bool.and_eq_true, validateOrderSet_iff]
  simp only [decide_eq_true_eq]
  tauto

/-- The exact optimum: the best payout over all feasible masks (0 if none). -/
def optValue (t : Truck) (l : List Order) : Int :=
  ((List.range (2 ^ l.length)).filter (feasibleMaskB t l)).foldl
    (fun acc m => max acc (sumPayout (extractOrders m l))) 0

theorem foldl_max_init_le {α : Type _} (f : α → Int) (L : List α) (a : Int) :
    a ≤ L.foldl (fun acc x => max acc (f x)) a := by
  induction L generalizing a with
  | nil => exact le_refl a
  | cons x L ih =>
    simp only [List.foldl_cons]
    exact le_trans (le_max_left a (f x)) (ih _)

theorem foldl_max_mem_le {α : Type _} (f : α → Int) (L : List α) (a : Int) :
    ∀ x ∈ L, f x ≤ L.foldl (fun acc m => max acc (f m)) a := by
  induction L generalizing a with
  | nil => intro x hx; cases hx
  | cons y L ih =>
    intro x hx
    simp only [List.foldl_cons]
    rcases List.mem_cons.mp hx with rfl | hmem
    · exact le_trans (le_max_right a (f x)) (foldl_max_init_le f L _)
    · exact ih _ x hmem

theorem foldl_max_attained {α : Type _} (f : α → Int) (L : List α) (a : Int) :
    L.foldl (fun acc m => max acc (f m)) a = a ∨
    ∃ x ∈ L, L.foldl (fun acc m => max acc (f m)) a = f x := by
  induction L generalizing a with
  | nil => exact Or.inl rfl
  | cons y L ih =>
    simp only [List.foldl_cons]
    rcases ih (max a (f y)) with h | ⟨x, hx, hfx⟩
    · rcases max_choice a (f y) with hm | hm
      · exact Or.inl (by rw [h, hm])
      · exact Or.inr ⟨y, List.mem_cons_self y L, by rw [h, hm]⟩
    · exact Or.inr ⟨x, List.mem_cons_of_mem y hx, hfx⟩

theorem dpBest_eq_optValue (t : Truck) (l : List Order)
    (hw : ∀ o ∈ l, 0 ≤ o.weightLbs) (hvo : ∀ o ∈ l, 0 ≤ o.volumeCuft) :
    (dpBest (dpTable t l) (2 ^ l.length)).1 = optValue t l := by
  have hN : 1 ≤ 2 ^ l.length := Nat.pos_pow_of_pos _ (by norm_num)
  have hspec := dpBest_spec (dpTable t l) (dpTable_valid_zero t l)
    (dpTable_payout_zero t l) (2 ^ l.length) hN
  have hOK := dpTable_TblOK t l
  apply le_antisymm
  · -- best value is the payout of a feasible mask (or 0)
    have hvb := hspec.1
    have hpb := hspec.2.1
    obtain ⟨hblt, hpay, hwt, hvol, hpw, hcaps⟩ := hOK _ hvb
    by_cases hb0 : (dpBest (dpTable t l) (2 ^ l.length)).2 = 0
    · rw [← hpb, hb0, dpTable_payout_zero]
      unfold optValue
      exact foldl_max_init_le _ _ 0
    · have hfeas : FeasibleMask t l (dpBest (dpTable t l) (2 ^ l.length)).2 :=
        ⟨hblt, hpw, (hcaps hb0).1, (hcaps hb0).2⟩
      rw [← hpb, hpay]
      unfold optValue
      exact foldl_max_mem_le _ _ 0 _
        (List.mem_filter.mpr ⟨List.mem_range.mpr hblt, (feasibleMaskB_iff t l _).mpr hfeas⟩)
  · -- the optimum is attained by some feasible mask whose payout the best dominates
    unfold optValue
    rcases foldl_max_attained (fun m => sumPayout (extractOrders m l))
        ((List.range (2 ^ l.length)).filter (feasibleMaskB t l)) 0 with h | ⟨m, hm, hfm⟩
    · rw [h]
      have h0 := hspec.2.2.2.1 0 hN (dpTable_valid_zero t l)
      rw [dpTable_payout_zero] at h0
      exact h0
    · rw [hfm]
      obtain ⟨hmr, hmb⟩ := List.mem_filter.mp hm
      have hfeas := (feasibleMaskB_iff t l m).mp hmb
      have hvm := dpTable_complete t l hw hvo m hfeas
      have := hspec.2.2.2.1 m (List.mem_range.mp hmr) hvm
      rw [(hOK m hvm).2.1] at this
      exact this

/-! Backtracking. -/

theorem sumPayout_nonneg {S : List Order} (h : ∀ o ∈ S, 0 ≤ o.payout) :
    0 ≤ sumPayout S := by
  apply List.sum_nonneg
  intro x hx
  obtain ⟨o, ho, rfl⟩ := List.mem_map.mp hx
  exact h o ho

theorem sumWeight_nonneg {S : List Order} (h : ∀ o ∈ S, 0 ≤ o.weightLbs) :
    0 ≤ sumWeight S := by
  apply List.sum_nonneg
  intro x hx
  obtain ⟨o, ho, rfl⟩ := List.mem_map.mp hx
  exact h o ho

theorem sumVolume_nonneg {S : List Order} (h : ∀ o ∈ S, 0 ≤ o.volumeCuft) :
    0 ≤ sumVolume S := by
  apply List.sum_nonneg
  intro x hx
  obtain ⟨o, ho, rfl⟩ := List.mem_map.mp hx
  exact h o ho

theorem sumPayout_sublist_le {S L : List Order} (hs : S.Sublist L)
    (h : ∀ o ∈ L, 0 ≤ o.payout) : sumPayout S ≤ sumPayout L := by
  apply List.Sublist.sum_le_sum (hs.map _)
  intro x hx
  obtain ⟨o, ho, rfl⟩ := List.mem_map.mp hx
  exact h o ho

theorem take_sublist_succ (l : List Order) (n : Nat) :
    (l.take n).Sublist (l.take (n + 1)) := by
  rw [List.take_succ]
  exact List.sublist_append_left _ _

theorem take_getD_succ (l : List Order) (n : Nat) (h : n < l.length) :
    l.take (n + 1) = l.take n ++ [l.getD n dOrder] := by
  rw [List.take_succ, List.getD_eq_getElem l dOrder h, List.getElem?_eq_getElem h]
  rfl

/-- What the best-so-far record always satisfies: totals are the sums of its
order list, which is a compatible sublist of the (filtered) input. -/
def BestConsistent (fo : List Order) (b : Best) : Prop :=
  b.payout = sumPayout b.orders ∧ b.weight = sumWeight b.orders ∧
  b.volume = sumVolume b.orders ∧ b.orders.Sublist fo ∧ PairwiseCompatible b.orders

theorem backtrack_consistent (t : Truck) (fo : List Order) :
    ∀ (n : Nat) (current : List Order) (index : Nat) (payout weight volume : Int)
      (best : Best),
      fo.length - index ≤ n →
      payout = sumPayout current → weight = sumWeight current →
      volume = sumVolume current →
      current.Sublist (fo.take index) → PairwiseCompatible current →
      BestConsistent fo best →
      BestConsistent fo (backtrack t fo current index payout weight volume best) := by
  intro n
  induction n with
  | zero =>
    intro current index payout weight volume best hn hp hw hv hsub hpw hbest
    rw [backtrack]
    have hlen : fo.length ≤ index := by omega
    rw [dif_pos hlen]
    by_cases hup : payout > best.payout
    · rw [if_pos hup]
      exact ⟨hp, hw, hv, hsub.trans (List.take_sublist index fo), hpw⟩
    · rw [if_neg hup]
      exact hbest
  | succ n ih =>
    intro current index payout weight volume best hn hp hw hv hsub hpw hbest
    rw [backtrack]
    set b1 := (if payout > best.payout then (⟨current, payout, weight, volume⟩ : Best)
      else best) with hb1def
    have hb1 : BestConsistent fo b1 := by
      rw [hb1def]
      by_cases hup : payout > best.payout
      · rw [if_pos hup]
        exact ⟨hp, hw, hv, hsub.trans (List.take_sublist index fo), hpw⟩
      · rw [if_neg hup]
        exact hbest
    by_cases hlen : fo.length ≤ index
    · rw [dif_pos hlen]
      exact hb1
    · rw [dif_neg hlen]
      by_cases hprune : payout + sumPayout (fo.drop index) ≤ b1.payout
      · rw [if_pos hprune]
        exact hb1
      · rw [if_neg hprune]
        have hidx : index < fo.length := Nat.lt_of_not_le hlen
        have hfuel : fo.length - (index + 1) ≤ n := by omega
        refine ih current (index + 1) payout weight volume _ hfuel hp hw hv
          (hsub.trans (take_sublist_succ fo index)) hpw ?_
        split
        · rename_i hg
          refine ih (current ++ [fo.getD index dOrder]) (index + 1) _ _ _ b1 hfuel
            (by rw [hp]; simp) (by rw [hw]; simp) (by rw [hv]; simp) ?_ ?_ hb1
          · rw [take_getD_succ fo index hidx]
            exact List.Sublist.append hsub (List.Sublist.refl _)
          · unfold PairwiseCompatible at hpw ⊢
            rw [List.pairwise_append]
            refine ⟨hpw, List.pairwise_singleton _ _, ?_⟩
            intro a ha b hb
            rw [List.mem_singleton] at hb
            subst hb
            rw [canCombine_symm]
            exact List.all_eq_true.mp hg.2 a ha
        · exact hb1

theorem backtrack_caps (t : Truck) (fo : List Order) :
    ∀ (n : Nat) (current : List Order) (index : Nat) (payout weight volume : Int)
      (best : Best),
      fo.length - index ≤ n →
      weight ≤ t.maxWeightLbs → volume ≤ t.maxVolumeCuft →
      best.weight ≤ t.maxWeightLbs → best.volume ≤ t.maxVolumeCuft →
      (backtrack t fo current index payout weight volume best).weight ≤ t.maxWeightLbs ∧
      (backtrack t fo current index payout weight volume best).volume ≤ t.maxVolumeCuft := by
  intro n
  induction n with
  | zero =>
    intro current index payout weight volume best hn hw hv hbw hbv
    rw [backtrack]
    have hlen : fo.length ≤ index := by omega
    rw [dif_pos hlen]
    by_cases hup : payout > best.payout
    · rw [if_pos hup]
      exact ⟨hw, hv⟩
    · rw [if_neg hup]
      exact ⟨hbw, hbv⟩
  | succ n ih =>
    intro current index payout weight volume best hn hw hv hbw hbv
    rw [backtrack]
    set b1 := (if payout > best.payout then (⟨current, payout, weight, volume⟩ : Best)
      else best) with hb1def
    have hb1 : b1.weight ≤ t.maxWeightLbs ∧ b1.volume ≤ t.maxVolumeCuft := by
      rw [hb1def]
      by_cases hup : payout > best.payout
      · rw [if_pos hup]
        exact ⟨hw, hv⟩
      · rw [if_neg hup]
        exact ⟨hbw, hbv⟩
    by_cases hlen : fo.length ≤ index
    · rw [dif_pos hlen]
      exact hb1
    · rw [dif_neg hlen]
      by_cases hprune : payout + sumPayout (fo.drop index) ≤ b1.payout
      · rw [if_pos hprune]
        exact hb1
      · rw [if_neg hprune]
        have hfuel : fo.length - (index + 1) ≤ n := by omega
        refine ih current (index + 1) payout weight volume _ hfuel hw hv ?_ ?_
        · split
          · rename_i hg
            exact (ih _ (index + 1) _ _ _ b1 hfuel hg.1.1 hg.1.2 hb1.1 hb1.2).1
          · exact hb1.1
        · split
          · rename_i hg
            exact (ih _ (index + 1) _ _ _ b1 hfuel hg.1.1 hg.1.2 hb1.1 hb1.2).2
          · exact hb1.2

theorem backtrack_ge (t : Truck) (fo : List Order)
    (hpos : ∀ a ∈ fo, 0 ≤ a.payout)
    (hwn : ∀ a ∈ fo, 0 ≤ a.weightLbs) (hvn : ∀ a ∈ fo, 0 ≤ a.volumeCuft) :
    ∀ (n : Nat) (current : List Order) (index : Nat) (payout weight volume : Int)
      (best : Best),
      fo.length - index ≤ n →
      best.payout ≤ (backtrack t fo current index payout weight volume best).payout ∧
      ∀ S, S.Sublist (fo.drop index) →
        weight + sumWeight S ≤ t.maxWeightLbs →
        volume + sumVolume S ≤ t.maxVolumeCuft →
        (∀ a ∈ S, ∀ c ∈ current, canCombine a c = true) →
        PairwiseCompatible S →
        payout + sumPayout S ≤ (backtrack t fo current index payout weight volume best).payout := by
  intro n
  induction n with
  | zero =>
    intro current index payout weight volume best hn
    rw [backtrack]
    have hlen : fo.length ≤ index := by omega
    rw [dif_pos hlen]
    constructor
    · by_cases hup : payout > best.payout
      · rw [if_pos hup]
        exact le_of_lt hup
      · rw [if_neg hup]
    · intro S hS _ _ _ _
      rw [List.drop_eq_nil_of_le hlen] at hS
      have hSnil : S = [] := List.sublist_nil.mp hS
      subst hSnil
      simp only [sumPayout_nil, add_zero]
      by_cases hup : payout > best.payout
      · rw [if_pos hup]
      · rw [if_neg hup]
        omega
  | succ n ih =>
    intro current index payout weight volume best hn
    rw [backtrack]
    dsimp only
    by_cases hlen : fo.length ≤ index
    · rw [dif_pos hlen]
      constructor
      · by_cases hup : payout > best.payout
        · rw [if_pos hup]
          exact le_of_lt hup
        · rw [if_neg hup]
      · intro S hS _ _ _ _
        rw [List.drop_eq_nil_of_le hlen] at hS
        have hSnil : S = [] := List.sublist_nil.mp hS
        subst hSnil
        simp only [sumPayout_nil, add_zero]
        by_cases hup : payout > best.payout
        · rw [if_pos hup]
        · rw [if_neg hup]
          omega
    · rw [dif_neg hlen]
      have hidx : index < fo.length := Nat.lt_of_not_le hlen
      have hfuel : fo.length - (index + 1) ≤ n := by omega
      set o := fo.getD index dOrder with hodef
      set b1 := (if payout > best.payout then (⟨current, payout, weight, volume⟩ : Best)
        else best) with hb1def
      have hb1a : best.payout ≤ b1.payout := by
        rw [hb1def]
        by_cases hup : payout > best.payout
        · rw [if_pos hup]
          exact le_of_lt hup
        · rw [if_neg hup]
      have hdrop : fo.drop index = o :: fo.drop (index + 1) := by
        rw [hodef, List.drop_eq_getElem_cons hidx, List.getD_eq_getElem fo dOrder hidx]
      by_cases hprune : payout + sumPayout (fo.drop index) ≤ b1.payout
      · rw [if_pos hprune]
        refine ⟨hb1a, ?_⟩
        intro S hS _ _ _ _
        have h1 : sumPayout S ≤ sumPayout (fo.drop index) :=
          sumPayout_sublist_le hS (fun a ha => hpos a (List.mem_of_mem_drop ha))
        omega
      · rw [if_neg hprune]
        by_cases hg : (weight + o.weightLbs ≤ t.maxWeightLbs ∧
            volume + o.volumeCuft ≤ t.maxVolumeCuft) ∧
            current.all (fun s => canCombine o s) = true
        · rw [if_pos hg]
          have hinc := ih (current ++ [o]) (index + 1) (payout + o.payout)
            (weight + o.weightLbs) (volume + o.volumeCuft) b1 hfuel
          have hexc := ih current (index + 1) payout weight volume
            (backtrack t fo (current ++ [o]) (index + 1) (payout + o.payout)
              (weight + o.weightLbs) (volume + o.volumeCuft) b1) hfuel
          refine ⟨le_trans hb1a (le_trans hinc.1 hexc.1), ?_⟩
          intro S hS hcw hcv hcross hpwS
          rw [hdrop] at hS
          rcases List.sublist_cons_iff.mp hS with hS2 | ⟨S', rfl, hS'⟩
          · exact hexc.2 S hS2 hcw hcv hcross hpwS
          · have hws : sumWeight (o :: S') = o.weightLbs + sumWeight S' := by simp
            have hvs : sumVolume (o :: S') = o.volumeCuft + sumVolume S' := by simp
            have hcross2 : ∀ a ∈ S', ∀ c ∈ current ++ [o], canCombine a c = true := by
              intro a ha c hc
              rcases List.mem_append.mp hc with hc | hc
              · exact hcross a (List.mem_cons_of_mem o ha) c hc
              · rw [List.mem_singleton] at hc
                subst hc
                rw [canCombine_symm]
                exact (List.pairwise_cons.mp hpwS).1 a ha
            have hpwS' : PairwiseCompatible S' := (List.pairwise_cons.mp hpwS).2
            have h2 := hinc.2 S' hS' (by rw [hws] at hcw; omega)
              (by rw [hvs] at hcv; omega) hcross2 hpwS'
            have h3 := hexc.1
            have hps : sumPayout (o :: S') = o.payout + sumPayout S' := by simp
            rw [hps]
            omega
        · rw [if_neg hg]
          have hexc := ih current (index + 1) payout weight volume b1 hfuel
          refine ⟨le_trans hb1a hexc.1, ?_⟩
          intro S hS hcw hcv hcross hpwS
          rw [hdrop] at hS
          rcases List.sublist_cons_iff.mp hS with hS2 | ⟨S', rfl, hS'⟩
          · exact hexc.2 S hS2 hcw hcv hcross hpwS
          · exfalso
            apply hg
            have hmemS' : ∀ a ∈ S', a ∈ fo := fun a ha =>
              List.mem_of_mem_drop (hS'.subset ha)
            have h0w : 0 ≤ sumWeight S' :=
              sumWeight_nonneg (fun a ha => hwn a (hmemS' a ha))
            have h0v : 0 ≤ sumVolume S' :=
              sumVolume_nonneg (fun a ha => hvn a (hmemS' a ha))
            have hws : sumWeight (o :: S') = o.weightLbs + sumWeight S' := by simp
            have hvs : sumVolume (o :: S') = o.volumeCuft + sumVolume S' := by simp
            refine ⟨⟨?_, ?_⟩, ?_⟩
            · rw [hws] at hcw
              omega
            · rw [hvs] at hcv
              omega
            · rw [List.all_eq_true]
              intro s hsmem
              exact hcross o (List.mem_cons_self o S') s hsmem

/-! Assembled optimizer-level facts. -/

theorem dpOptimize_eq_dpResult (t : Truck) (os : List Order) :
    dpOptimize t os = dpResult t (filterFeasibleOrders t os) := by
  unfold dpOptimize
  by_cases h1 : os.isEmpty = true
  · rw [if_pos h1]
    have hos : os = [] := List.isEmpty_iff.mp h1
    subst hos
    rfl
  · rw [if_neg h1]
    by_cases h2 : (filterFeasibleOrders t os).isEmpty = true
    · rw [if_pos h2]
      have hfo : filterFeasibleOrders t os = [] := List.isEmpty_iff.mp h2
      rw [hfo]
      rfl
    · rw [if_neg h2]
      rfl

theorem dpResult_consistent (t : Truck) (l : List Order) :
    (dpResult t l).totalPayout = sumPayout (dpResult t l).selectedOrders ∧
    (dpResult t l).totalWeight = sumWeight (dpResult t l).selectedOrders ∧
    (dpResult t l).totalVolume = sumVolume (dpResult t l).selectedOrders ∧
    ((dpResult t l).selectedOrders).Sublist l ∧
    PairwiseCompatible (dpResult t l).selectedOrders := by
  have hN : 1 ≤ 2 ^ l.length := Nat.pos_pow_of_pos _ (by norm_num)
  have hspec := dpBest_spec (dpTable t l) (dpTable_valid_zero t l)
    (dpTable_payout_zero t l) (2 ^ l.length) hN
  have hOK := dpTable_TblOK t l _ hspec.1
  unfold dpResult
  dsimp only
  refine ⟨?_, hOK.2.2.1, hOK.2.2.2.1, extractOrders_sublist _ l, hOK.2.2.2.2.1⟩
  rw [← hspec.2.1]
  exact hOK.2.1

theorem dpResult_caps (t : Truck) (l : List Order)
    (hcw : 0 ≤ t.maxWeightLbs) (hcv : 0 ≤ t.maxVolumeCuft) :
    (dpResult t l).totalWeight ≤ t.maxWeightLbs ∧
    (dpResult t l).totalVolume ≤ t.maxVolumeCuft := by
  have hN : 1 ≤ 2 ^ l.length := Nat.pos_pow_of_pos _ (by norm_num)
  have hspec := dpBest_spec (dpTable t l) (dpTable_valid_zero t l)
    (dpTable_payout_zero t l) (2 ^ l.length) hN
  have hOK := dpTable_TblOK t l _ hspec.1
  unfold dpResult
  dsimp only
  by_cases hb0 : (dpBest (dpTable t l) (2 ^ l.length)).2 = 0
  · have h0 := dpTable_TblOK t l 0 (dpTable_valid_zero t l)
    rw [hb0, h0.2.2.1, h0.2.2.2.1, extractOrders_zero]
    constructor
    · simpa using hcw
    · simpa using hcv
  · rw [hOK.2.2.1, hOK.2.2.2.1]
    exact hOK.2.2.2.2.2 hb0

theorem dpResult_payout_eq_optValue (t : Truck) (l : List Order)
    (hw : ∀ o ∈ l, 0 ≤ o.weightLbs) (hvo : ∀ o ∈ l, 0 ≤ o.volumeCuft) :
    (dpResult t l).totalPayout = optValue t l := by
  unfold dpResult
  dsimp only
  exact dpBest_eq_optValue t l hw hvo

theorem btOptimize_consistent (t : Truck) (os : List Order) :
    (btOptimize t os).totalPayout = sumPayout (btOptimize t os).selectedOrders ∧
    (btOptimize t os).totalWeight = sumWeight (btOptimize t os).selectedOrders ∧
    (btOptimize t os).totalVolume = sumVolume (btOptimize t os).selectedOrders ∧
    ((btOptimize t os).selectedOrders).Sublist (filterFeasibleOrders t os) ∧
    PairwiseCompatible (btOptimize t os).selectedOrders := by
  have h := backtrack_consistent t (filterFeasibleOrders t os)
    ((filterFeasibleOrders t os).length) [] 0 0 0 0 ⟨[], 0, 0, 0⟩
    (by omega) rfl rfl rfl (by simp) List.Pairwise.nil
    ⟨rfl, rfl, rfl, List.nil_sublist _, List.Pairwise.nil⟩
  unfold btOptimize
  dsimp only
  exact ⟨h.1, h.2.1, h.2.2.1, h.2.2.2.1, h.2.2.2.2⟩

theorem btOptimize_caps (t : Truck) (os : List Order)
    (hcw : 0 ≤ t.maxWeightLbs) (hcv : 0 ≤ t.maxVolumeCuft) :
    (btOptimize t os).totalWeight ≤ t.maxWeightLbs ∧
    (btOptimize t os).totalVolume ≤ t.maxVolumeCuft := by
  have h := backtrack_caps t (filterFeasibleOrders t os)
    ((filterFeasibleOrders t os).length) [] 0 0 0 0 ⟨[], 0, 0, 0⟩
    (by omega) hcw hcv hcw hcv
  unfold btOptimize
  dsimp only
  exact h

theorem btOptimize_payout_eq_optValue (t : Truck) (os : List Order)
    (hpos : ∀ a ∈ os, 0 ≤ a.payout)
    (hwn : ∀ a ∈ os, 0 ≤ a.weightLbs) (hvn : ∀ a ∈ os, 0 ≤ a.volumeCuft)
    (hcw : 0 ≤ t.maxWeightLbs) (hcv : 0 ≤ t.maxVolumeCuft) :
    (btOptimize t os).totalPayout = optValue t (filterFeasibleOrders t os) := by
  have hmem : ∀ a ∈ filterFeasibleOrders t os, a ∈ os := by
    intro a ha
    exact (List.mem_filter.mp ha).1
  have hpos2 : ∀ a ∈ filterFeasibleOrders t os, 0 ≤ a.payout :=
    fun a ha => hpos a (hmem a ha)
  have hwn2 : ∀ a ∈ filterFeasibleOrders t os, 0 ≤ a.weightLbs :=
    fun a ha => hwn a (hmem a ha)
  have hvn2 : ∀ a ∈ filterFeasibleOrders t os, 0 ≤ a.volumeCuft :=
    fun a ha => hvn a (hmem a ha)
  have hge := backtrack_ge t (filterFeasibleOrders t os) hpos2 hwn2 hvn2
    ((filterFeasibleOrders t os).length) [] 0 0 0 0 ⟨[], 0, 0, 0⟩ (by omega)
  have hcons := btOptimize_consistent t os
  have hbcaps := btOptimize_caps t os hcw hcv
  apply le_antisymm
  · -- the found best is a feasible subset, so its payout is at most the optimum
    obtain ⟨m, hmlt, hext⟩ := sublist_eq_extractOrders hcons.2.2.2.1
    rw [hcons.1, ← hext]
    by_cases hfeas : feasibleMaskB t (filterFeasibleOrders t os) m = true
    · exact foldl_max_mem_le _ _ 0 m
        (List.mem_filter.mpr ⟨List.mem_range.mpr hmlt, hfeas⟩)
    · exfalso
      apply hfeas
      rw [feasibleMaskB_iff]
      refine ⟨hmlt, ?_, ?_, ?_⟩
      · rw [hext]
        exact hcons.2.2.2.2
      · rw [hext, ← hcons.2.1]
        exact hbcaps.1
      · rw [hext, ← hcons.2.2.1]
        exact hbcaps.2
  · -- every feasible subset is explored, so the optimum is at most the found best
    unfold optValue
    rcases foldl_max_attained
        (fun m => sumPayout (extractOrders m (filterFeasibleOrders t os)))
        ((List.range (2 ^ (filterFeasibleOrders t os).length)).filter
          (feasibleMaskB t (filterFeasibleOrders t os))) 0 with h | ⟨m, hm, hfm⟩
    · rw [h]
      have h0 := hge.1
      unfold btOptimize
      dsimp only
      simpa using h0
    · rw [hfm]
      obtain ⟨_, hmb⟩ := List.mem_filter.mp hm
      have hfeas := (feasibleMaskB_iff t (filterFeasibleOrders t os) m).mp hmb
      have hS := hge.2 (extractOrders m (filterFeasibleOrders t os))
        (by simpa using extractOrders_sublist m (filterFeasibleOrders t os))
        (by simpa using hfeas.2.2.1)
        (by simpa using hfeas.2.2.2)
        (by intro a _ c hc; cases hc)
        hfeas.2.1
      unfold btOptimize
      dsimp only
      simpa using hS

theorem greedyOptimize_spec (t : Truck) (os : List Order) :
    (greedyOptimize t os).totalPayout = sumPayout (greedyOptimize t os).selectedOrders ∧
    (greedyOptimize t os).totalWeight = sumWeight (greedyOptimize t os).selectedOrders ∧
    (greedyOptimize t os).totalVolume = sumVolume (greedyOptimize t os).selectedOrders ∧
    PairwiseCompatible (greedyOptimize t os).selectedOrders ∧
    CapsOK t (greedyOptimize t os).selectedOrders ∧
    ((greedyOptimize t os).selectedOrders).Subperm (filterFeasibleOrders t os) := by
  obtain ⟨T, hT, heq, hpw, hcaps⟩ :=
    greedy_fold_spec t (sortByValueDensity (filterFeasibleOrders t os)) []
      List.Pairwise.nil (Or.inl rfl)
  rw [List.nil_append] at heq hpw hcaps
  unfold greedyOptimize
  dsimp only
  have e0 : (([], 0, 0, 0) : List Order × Int × Int × Int)
      = ([], sumWeight [], sumVolume [], sumPayout []) := rfl
  rw [e0, heq]
  exact ⟨rfl, rfl, rfl, hpw, hcaps,
    (hT.subperm).trans (sortByValueDensity_perm (filterFeasibleOrders t os)).subperm⟩

theorem greedy_le_optValue (t : Truck) (os : List Order) :
    (greedyOptimize t os).totalPayout ≤ optValue t (filterFeasibleOrders t os) := by
  obtain ⟨hp, hw, hv, hpw, hcaps, hsp⟩ := greedyOptimize_spec t os
  rcases hcaps with hnil | hcaps
  · rw [hp, hnil]
    simpa using foldl_max_init_le
      (fun m => sumPayout (extractOrders m (filterFeasibleOrders t os))) _ 0
  · obtain ⟨u, hu_perm, hu_sub⟩ := hsp
    obtain ⟨m, hmlt, hext⟩ := sublist_eq_extractOrders hu_sub
    have hfeas : feasibleMaskB t (filterFeasibleOrders t os) m = true := by
      rw [feasibleMaskB_iff]
      refine ⟨hmlt, ?_, ?_, ?_⟩
      · rw [hext]
        exact (pairwiseCompatible_perm hu_perm).mpr hpw
      · rw [hext, sumWeight_perm hu_perm]
        exact hcaps.1
      · rw [hext, sumVolume_perm hu_perm]
        exact hcaps.2
    have := foldl_max_mem_le
      (fun m => sumPayout (extractOrders m (filterFeasibleOrders t os)))
      ((List.range (2 ^ (filterFeasibleOrders t os).length)).filter
        (feasibleMaskB t (filterFeasibleOrders t os))) 0 m
      (List.mem_filter.mpr ⟨List.mem_range.mpr hmlt, hfeas⟩)
    rw [hp, ← sumPayout_perm hu_perm, ← hext]
    exact this

/-! Service-layer facts. -/

theorem dominates_irrefl (s : ParetoSolution) : dominates s s = false := by
  unfold dominates Frac.le Frac.lt
  simp

theorem filterParetoOptimal_nondominating (sols : List ParetoSolution) :
    ∀ x ∈ filterParetoOptimal sols, ∀ y ∈ filterParetoOptimal sols,
      dominates x y = false := by
  intro x hx y hy
  unfold filterParetoOptimal at hx hy
  obtain ⟨i, hi, rfl⟩ := List.mem_map.mp hx
  obtain ⟨j, hj, rfl⟩ := List.mem_map.mp hy
  obtain ⟨hir, _⟩ := List.mem_filter.mp hi
  obtain ⟨hjr, hjp⟩ := List.mem_filter.mp hj
  by_cases hij : i = j
  · subst hij
    exact dominates_irrefl _
  · cases hdom : dominates (sols.getD i dSol) (sols.getD j dSol)
    · rfl
    · exfalso
      rw [Bool.not_eq_eq_eq_not, Bool.not_true, List.any_eq_false] at hjp
      exact hjp i hir (by rw [hdom]; simp [hij])

theorem paretoCollect_eq_take
    (opt : Truck → List Order → OptimizationResult) (t : Truck)
    (orders : List Order) (k : Nat) :
    ∀ (ws : List (Frac × Frac)) (sols : List ParetoSolution) (seen : List String),
      sols.length < max 1 k →
      paretoCollect opt t orders k ws sols seen
        = sols ++ ((dedupCandidates opt t orders ws seen).map
            (fun wr => mkParetoSolution t wr.1 wr.2)).take (max 1 k - sols.length) := by
  intro ws
  induction ws with
  | nil =>
    intro sols seen _
    simp [paretoCollect, dedupCandidates]
  | cons w ws ih =>
    intro sols seen h
    have hM1 : 1 ≤ max 1 k := le_max_left 1 k
    have hMk : k ≤ max 1 k := le_max_right 1 k
    have hMc : max 1 k = 1 ∨ max 1 k = k := max_choice 1 k
    unfold paretoCollect dedupCandidates
    dsimp only
    by_cases hseen : solutionKey (optimizeWithWeights opt t orders w.1 w.2) ∈ seen
    · rw [if_pos hseen, if_pos hseen]
      exact ih sols seen h
    · rw [if_neg hseen, if_neg hseen]
      by_cases hbreak : k ≤ (sols ++
          [mkParetoSolution t w (optimizeWithWeights opt t orders w.1 w.2)]).length
      · rw [if_pos hbreak]
        rw [List.length_append, List.length_singleton] at hbreak
        have hM : max 1 k - sols.length = 1 := by omega
        rw [List.map_cons, hM, List.take_succ_cons, List.take_zero]
      · rw [if_neg hbreak]
        rw [List.length_append, List.length_singleton] at hbreak
        have hlen2 : (sols ++
            [mkParetoSolution t w (optimizeWithWeights opt t orders w.1 w.2)]).length
            < max 1 k := by
          rw [List.length_append, List.length_singleton]
          omega
        rw [ih _ _ hlen2]
        rw [List.length_append, List.length_singleton]
        have hM : max 1 k - sols.length = (max 1 k - (sols.length + 1)) + 1 := by omega
        rw [hM, List.map_cons, List.take_succ_cons]
        simp [List.append_assoc]

theorem getPareto_eq_filter_take
    (opt : Truck → List Order → OptimizationResult) (t : Truck)
    (orders : List Order) (k : Nat) :
    getParetoOptimalSolutions opt t orders k
      = filterParetoOptimal
          (((dedupCandidates opt t orders fiveWeights []).map
            (fun wr => mkParetoSolution t wr.1 wr.2)).take (max 1 k)) := by
  unfold getParetoOptimalSolutions
  rw [paretoCollect_eq_take opt t orders k fiveWeights [] []
    (by simp [Nat.lt_of_lt_of_le Nat.zero_lt_one (le_max_left 1 k)])]
  simp

theorem mem_filterParetoOptimal (l : List ParetoSolution) (x : ParetoSolution)
    (hx : x ∈ filterParetoOptimal l) : x ∈ l := by
  unfold filterParetoOptimal at hx
  obtain ⟨i, hi, rfl⟩ := List.mem_map.mp hx
  have hilt : i < l.length := List.mem_range.mp (List.mem_filter.mp hi).1
  rw [List.getD_eq_getElem l dSol hilt]
  exact List.getElem_mem hilt

theorem dedupCandidates_mem (opt : Truck → List Order → OptimizationResult)
    (t : Truck) (orders : List Order) :
    ∀ (ws : List (Frac × Frac)) (seen : List String)
      (wr : (Frac × Frac) × OptimizationResult),
    wr ∈ dedupCandidates opt t orders ws seen →
    wr.1 ∈ ws ∧ wr.2 = optimizeWithWeights opt t orders wr.1.1 wr.1.2 := by
  intro ws
  induction ws with
  | nil =>
    intro seen wr h
    simp [dedupCandidates] at h
  | cons w ws ih =>
    intro seen wr h
    unfold dedupCandidates at h
    dsimp only at h
    by_cases hseen : solutionKey (optimizeWithWeights opt t orders w.1 w.2) ∈ seen
    · rw [if_pos hseen] at h
      obtain ⟨h1, h2⟩ := ih _ wr h
      exact ⟨List.mem_cons_of_mem _ h1, h2⟩
    · rw [if_neg hseen] at h
      rcases List.mem_cons.mp h with h | h
      · rw [h]
        exact ⟨List.mem_cons_self _ _, rfl⟩
      · obtain ⟨h1, h2⟩ := ih _ wr h
        exact ⟨List.mem_cons_of_mem _ h1, h2⟩

theorem weightedOrder_preserves (t : Truck) (rw uw : Frac) (o : Order) :
    (weightedOrder t rw uw o).id = o.id ∧
    (weightedOrder t rw uw o).weightLbs = o.weightLbs ∧
    (weightedOrder t rw uw o).volumeCuft = o.volumeCuft := ⟨rfl, rfl, rfl⟩

theorem hybridOptimize_consistent (t : Truck) (os : List Order) :
    (hybridOptimize t os).totalPayout = sumPayout (hybridOptimize t os).selectedOrders ∧
    (hybridOptimize t os).totalWeight = sumWeight (hybridOptimize t os).selectedOrders ∧
    (hybridOptimize t os).totalVolume = sumVolume (hybridOptimize t os).selectedOrders ∧
    ∀ a ∈ (hybridOptimize t os).selectedOrders, a ∈ os := by
  unfold hybridOptimize
  by_cases hlen : os.length ≤ 22
  · rw [if_pos hlen, dpOptimize_eq_dpResult]
    have h := dpResult_consistent t (filterFeasibleOrders t os)
    refine ⟨h.1, h.2.1, h.2.2.1, ?_⟩
    intro a ha
    exact (List.filter_sublist os).subset (h.2.2.2.1.subset ha)
  · rw [if_neg hlen]
    have h := greedyOptimize_spec t os
    refine ⟨h.1, h.2.1, h.2.2.1, ?_⟩
    intro a ha
    exact (List.filter_sublist os).subset (h.2.2.2.2.2.subset ha)

/-! Degenerate inputs. -/

theorem backtrack_nil_init (t : Truck) :
    backtrack t [] [] 0 0 0 0 ⟨[], 0, 0, 0⟩ = ⟨[], 0, 0, 0⟩ := by
  rw [backtrack]
  rw [dif_pos (by simp)]
  rw [if_neg (by decide)]

theorem dpResult_nil (t : Truck) : dpResult t [] = ⟨[], 0, 0, 0⟩ := rfl

theorem dpOptimize_empty_of_filter (t : Truck) (os : List Order)
    (hfo : filterFeasibleOrders t os = []) : dpOptimize t os = ⟨[], 0, 0, 0⟩ := by
  rw [dpOptimize_eq_dpResult, hfo, dpResult_nil]

theorem btOptimize_empty_of_filter (t : Truck) (os : List Order)
    (hfo : filterFeasibleOrders t os = []) : btOptimize t os = ⟨[], 0, 0, 0⟩ := by
  unfold btOptimize
  rw [hfo]
  dsimp only
  rw [backtrack_nil_init]

theorem greedyOptimize_empty_of_filter (t : Truck) (os : List Order)
    (hfo : filterFeasibleOrders t os = []) : greedyOptimize t os = ⟨[], 0, 0, 0⟩ := by
  unfold greedyOptimize
  rw [hfo]
  rfl

theorem filterFeasibleOrders_eq_nil (t : Truck) (os : List Order)
    (h : ∀ o ∈ os, o.weightLbs > t.maxWeightLbs ∨ o.volumeCuft > t.maxVolumeCuft) :
    filterFeasibleOrders t os = [] := by
  unfold filterFeasibleOrders
  rw [List.filter_eq_nil_iff]
  intro o ho
  rcases h o ho with hc | hc <;> simp [hc]

theorem perm_pair_eq {u : List Order} {a b : Order} (h : u.Perm [a, b]) :
    u = [a, b] ∨ u = [b, a] := by
  have hlen : u.length = 2 := by
    rw [h.length_eq]
    rfl
  match u, hlen with
  | [x, y], _ =>
    have hx : x ∈ [a, b] := h.subset (List.mem_cons_self x [y])
    rcases List.mem_cons.mp hx with rfl | hx2
    · have h2 : [y].Perm [b] := h.cons_inv
      rw [List.perm_singleton.mp h2]
      exact Or.inl rfl
    · rw [List.mem_singleton] at hx2
      subst hx2
      have h3 : ([x, y] : List Order).Perm [x, a] := h.trans (List.Perm.swap x a [])
      have h4 : [y].Perm [a] := h3.cons_inv
      rw [List.perm_singleton.mp h4]
      exact Or.inr rfl

theorem sublist_pair_positions {x y : Order} {os : List Order}
    (h : ([x, y] : List Order).Sublist os) :
    ∃ i j, i < j ∧ j < os.length ∧ os.getD i dOrder = x ∧ os.getD j dOrder = y := by
  induction os with
  | nil => simp at h
  | cons o os ih =>
    rcases List.sublist_cons_iff.mp h with h2 | ⟨r, heq, hr⟩
    · obtain ⟨i, j, hij, hj, hx, hy⟩ := ih h2
      refine ⟨i + 1, j + 1, by omega, by simp; omega, ?_, ?_⟩
      · rw [List.getD_cons_succ]
        exact hx
      · rw [List.getD_cons_succ]
        exact hy
    · obtain ⟨hox, hry⟩ := (List.cons.injEq x [y] o r).mp heq
      subst hox
      subst hry
      have hym : y ∈ os := List.singleton_sublist.mp hr
      obtain ⟨j, hj, hjy⟩ := List.getElem_of_mem hym
      refine ⟨0, j + 1, by omega, by simp; omega, List.getD_cons_zero, ?_⟩
      rw [List.getD_cons_succ, List.getD_eq_getElem os dOrder hj]
      exact hjy

theorem selection_le_one {os S : List Order}
    (hnc : ∀ i, i < os.length → ∀ j, j < os.length → i ≠ j →
      canCombine (os.getD i dOrder) (os.getD j dOrder) = false)
    (hsp : S.Subperm os) (hpw : PairwiseCompatible S) : S.length ≤ 1 := by
  by_contra hlen
  push_neg at hlen
  match S, hlen, hsp, hpw with
  | a :: b :: rest, _, hsp, hpw =>
    have hab : canCombine a b = true :=
      (List.pairwise_cons.mp hpw).1 b (List.mem_cons_self b rest)
    have hpair : ([a, b] : List Order).Subperm os := by
      refine List.Subperm.trans ?_ hsp
      exact (List.Sublist.cons₂ a (List.Sublist.cons₂ b (List.nil_sublist rest))).subperm
    obtain ⟨u, hu_perm, hu_sub⟩ := hpair
    rcases perm_pair_eq hu_perm with rfl | rfl
    · obtain ⟨i, j, hij, hj, hx, hy⟩ := sublist_pair_positions hu_sub
      have := hnc i (by omega) j hj (by omega)
      rw [hx, hy, hab] at this
      cases this
    · obtain ⟨i, j, hij, hj, hx, hy⟩ := sublist_pair_positions hu_sub
      have := hnc i (by omega) j hj (by omega)
      rw [hx, hy, canCombine_symm, hab] at this
      cases this

/-! Claim theorems. -/

theorem strictCanCombine_iff (a b : Order) :
    strictCanCombine a b = true ↔
      (canCombine a b = true ∧ |a.pickupDate - b.pickupDate| ≤ 86400000000000) := by
  unfold strictCanCombine
  by_cases hcc : canCombine a b = true
  · rw [if_neg (by rw [hcc]; simp)]
    dsimp only
    simp only [Frac.div, Frac.ofInt, Frac.lt, Frac.le, Frac.neg, nsPerHour,
      mul_one, one_mul, mul_zero, zero_mul, decide_eq_true_eq, hcc, true_and]
    rcases le_or_lt 0 (a.pickupDate - b.pickupDate) with hd | hd
    · rw [if_neg (by omega), abs_of_nonneg hd]
      dsimp only
      constructor <;> intro h <;> omega
    · rw [if_pos (by omega), abs_of_neg hd]
      dsimp only
      constructor <;> intro h <;> omega
  · rw [if_pos (by simpa using hcc)]
    simp [hcc]

/-- C9: the default `CanCombine` is false when the route keys differ, false
when the hazmat flags differ, and otherwise true because the default
time-window predicate always returns true; the strict variant additionally
requires the two pickup dates to differ by at most one day (86400000000000
nanoseconds). -/
theorem C9_canCombine_rules : ∀ a b : Order,
    (a.route ≠ b.route → canCombine a b = false) ∧
    (a.isHazmat ≠ b.isHazmat → canCombine a b = false) ∧
    timeWindowsCompatible a b = true ∧
    (a.route = b.route → a.isHazmat = b.isHazmat → canCombine a b = true) ∧
    (strictCanCombine a b = true ↔
      (canCombine a b = true ∧ |a.pickupDate - b.pickupDate| ≤ 86400000000000)) := by
  intro a b
  refine ⟨?_, ?_, rfl, ?_, strictCanCombine_iff a b⟩
  · intro h
    rw [canCombine_eq]
    simp [h]
  · intro h
    rw [canCombine_eq]
    simp [h]
  · intro h1 h2
    rw [canCombine_eq]
    simp [h1, h2]

/-- C9 witness: the hazmat/non-hazmat pair of Scenario C cannot combine, and
the default time-window predicate holds on the Scenario A pair. -/
theorem C9_canCombine_rules_witness :
    canCombine exHaz exNonHaz = false ∧
    timeWindowsCompatible exOrder1 exOrder2 = true :=
  ⟨(C9_canCombine_rules exHaz exNonHaz).2.1 (by decide),
   (C9_canCombine_rules exOrder1 exOrder2).2.2.1⟩

/-- C8: `HybridOptimizer.Optimize` delegates to the DP solver exactly when the
order count is at most 22 and to the greedy solver otherwise — a hard
threshold with no blending. -/
theorem C8_hybrid_dispatch : ∀ (t : Truck) (os : List Order),
    (os.length ≤ 22 → hybridOptimize t os = dpOptimize t os) ∧
    (22 < os.length → hybridOptimize t os = greedyOptimize t os) := by
  intro t os
  constructor <;> intro h <;> unfold hybridOptimize
  · rw [if_pos h]
  · rw [if_neg (by omega)]

/-- C8 witness: 23 orders are routed to the greedy solver (whose answer, 13,
is provably below the feasible payout 20 of the pair Y+Z), and 2 orders are
routed to the DP solver. -/
theorem C8_hybrid_dispatch_witness :
    hybridOptimize exTruckD exOrdersD = greedyOptimize exTruckD exOrdersD ∧
    (greedyOptimize exTruckD exOrdersD).totalPayout = 13 ∧
    sumPayout [exOrderY, exOrderZ] = 20 ∧
    hybridOptimize exTruckA [exOrder1, exOrder2] = dpOptimize exTruckA [exOrder1, exOrder2] :=
  ⟨(C8_hybrid_dispatch exTruckD exOrdersD).2 (by decide), by decide, by decide,
   (C8_hybrid_dispatch exTruckA [exOrder1, exOrder2]).1 (by decide)⟩

/-- C10: every optimizer's result is internally consistent — the three totals
are the sums of the corresponding attributes over the selected orders, and
every selected order is one of the input orders. -/
theorem C10_results_internally_consistent : ∀ (t : Truck) (os : List Order),
    ((dpOptimize t os).totalPayout = sumPayout (dpOptimize t os).selectedOrders ∧
     (dpOptimize t os).totalWeight = sumWeight (dpOptimize t os).selectedOrders ∧
     (dpOptimize t os).totalVolume = sumVolume (dpOptimize t os).selectedOrders ∧
     ∀ a ∈ (dpOptimize t os).selectedOrders, a ∈ os) ∧
    ((btOptimize t os).totalPayout = sumPayout (btOptimize t os).selectedOrders ∧
     (btOptimize t os).totalWeight = sumWeight (btOptimize t os).selectedOrders ∧
     (btOptimize t os).totalVolume = sumVolume (btOptimize t os).selectedOrders ∧
     ∀ a ∈ (btOptimize t os).selectedOrders, a ∈ os) ∧
    ((greedyOptimize t os).totalPayout = sumPayout (greedyOptimize t os).selectedOrders ∧
     (greedyOptimize t os).totalWeight = sumWeight (greedyOptimize t os).selectedOrders ∧
     (greedyOptimize t os).totalVolume = sumVolume (greedyOptimize t os).selectedOrders ∧
     ∀ a ∈ (greedyOptimize t os).selectedOrders, a ∈ os) := by
  intro t os
  refine ⟨?_, ?_, ?_⟩
  · rw [dpOptimize_eq_dpResult]
    have h := dpResult_consistent t (filterFeasibleOrders t os)
    refine ⟨h.1, h.2.1, h.2.2.1, ?_⟩
    intro a ha
    exact (List.filter_sublist os).subset (h.2.2.2.1.subset ha)
  · have h := btOptimize_consistent t os
    refine ⟨h.1, h.2.1, h.2.2.1, ?_⟩
    intro a ha
    exact (List.filter_sublist os).subset (h.2.2.2.1.subset ha)
  · have h := greedyOptimize_spec t os
    refine ⟨h.1, h.2.1, h.2.2.1, ?_⟩
    intro a ha
    exact (List.filter_sublist os).subset (h.2.2.2.2.2.subset ha)

/-- C10 witness: consistency at the Scenario A instance. -/
theorem C10_results_internally_consistent_witness :
    (dpOptimize exTruckA [exOrder1, exOrder2]).totalPayout
      = sumPayout (dpOptimize exTruckA [exOrder1, exOrder2]).selectedOrders ∧
    (greedyOptimize exTruckA [exOrder1, exOrder2]).totalWeight
      = sumWeight (greedyOptimize exTruckA [exOrder1, exOrder2]).selectedOrders :=
  ⟨(C10_results_internally_consistent exTruckA [exOrder1, exOrder2]).1.1,
   (C10_results_internally_consistent exTruckA [exOrder1, exOrder2]).2.2.2.1⟩

/-- C3: with non-negative truck capacities, every optimizer's selection
respects both capacities and passes `ValidateOrderSet`. -/
theorem C3_feasibility : ∀ (t : Truck) (os : List Order),
    0 ≤ t.maxWeightLbs → 0 ≤ t.maxVolumeCuft →
    ((dpOptimize t os).totalWeight ≤ t.maxWeightLbs ∧
     (dpOptimize t os).totalVolume ≤ t.maxVolumeCuft ∧
     validateOrderSet (dpOptimize t os).selectedOrders = true) ∧
    ((btOptimize t os).totalWeight ≤ t.maxWeightLbs ∧
     (btOptimize t os).totalVolume ≤ t.maxVolumeCuft ∧
     validateOrderSet (btOptimize t os).selectedOrders = true) ∧
    ((greedyOptimize t os).totalWeight ≤ t.maxWeightLbs ∧
     (greedyOptimize t os).totalVolume ≤ t.maxVolumeCuft ∧
     validateOrderSet (greedyOptimize t os).selectedOrders = true) := by
  intro t os hcw hcv
  refine ⟨?_, ?_, ?_⟩
  · have hcaps := dpResult_caps t (filterFeasibleOrders t os) hcw hcv
    have hcons := dpResult_consistent t (filterFeasibleOrders t os)
    rw [dpOptimize_eq_dpResult]
    exact ⟨hcaps.1, hcaps.2, (validateOrderSet_iff _).mpr hcons.2.2.2.2⟩
  · have hcaps := btOptimize_caps t os hcw hcv
    have hcons := btOptimize_consistent t os
    exact ⟨hcaps.1, hcaps.2, (validateOrderSet_iff _).mpr hcons.2.2.2.2⟩
  · have h := greedyOptimize_spec t os
    have hwv : (greedyOptimize t os).totalWeight ≤ t.maxWeightLbs ∧
        (greedyOptimize t os).totalVolume ≤ t.maxVolumeCuft := by
      rcases h.2.2.2.2.1 with hnil | hcaps
      · rw [h.2.1, h.2.2.1, hnil]
        constructor <;> simpa
      · rw [h.2.1, h.2.2.1]
        exact hcaps
    exact ⟨hwv.1, hwv.2, (validateOrderSet_iff _).mpr h.2.2.2.1⟩

/-- C3 witness: feasibility at the Scenario A instance. -/
theorem C3_feasibility_witness :
    (dpOptimize exTruckA [exOrder1, exOrder2]).totalWeight ≤ exTruckA.maxWeightLbs ∧
    validateOrderSet (btOptimize exTruckA [exOrder1, exOrder2]).selectedOrders = true :=
  ⟨((C3_feasibility exTruckA [exOrder1, exOrder2] (by decide) (by decide)).1).1,
   ((C3_feasibility exTruckA [exOrder1, exOrder2] (by decide) (by decide)).2.1).2.2⟩

/-- C2: for valid inputs with at most 22 orders, the greedy payout is at most
the DP payout, the DP payout is at most the backtracking payout, and the DP
and backtracking payouts are equal (both exact). -/
theorem C2_optimality_chain : ∀ (t : Truck) (os : List Order),
    os.length ≤ 22 → 0 < t.maxWeightLbs → 0 < t.maxVolumeCuft →
    (∀ o ∈ os, 0 < o.payout ∧ 0 < o.weightLbs ∧ 0 < o.volumeCuft) →
    (greedyOptimize t os).totalPayout ≤ (dpOptimize t os).totalPayout ∧
    (dpOptimize t os).totalPayout ≤ (btOptimize t os).totalPayout ∧
    (dpOptimize t os).totalPayout = (btOptimize t os).totalPayout := by
  intro t os _ hcw hcv hpos
  have hw : ∀ o ∈ os, 0 ≤ o.weightLbs := fun o ho => le_of_lt (hpos o ho).2.1
  have hv : ∀ o ∈ os, 0 ≤ o.volumeCuft := fun o ho => le_of_lt (hpos o ho).2.2
  have hp : ∀ o ∈ os, 0 ≤ o.payout := fun o ho => le_of_lt (hpos o ho).1
  have hwf : ∀ o ∈ filterFeasibleOrders t os, 0 ≤ o.weightLbs :=
    fun o ho => hw o (List.mem_filter.mp ho).1
  have hvf : ∀ o ∈ filterFeasibleOrders t os, 0 ≤ o.volumeCuft :=
    fun o ho => hv o (List.mem_filter.mp ho).1
  have hdp : (dpOptimize t os).totalPayout = optValue t (filterFeasibleOrders t os) := by
    rw [dpOptimize_eq_dpResult]
    exact dpResult_payout_eq_optValue t _ hwf hvf
  have hbt : (btOptimize t os).totalPayout = optValue t (filterFeasibleOrders t os) :=
    btOptimize_payout_eq_optValue t os hp hw hv (le_of_lt hcw) (le_of_lt hcv)
  refine ⟨?_, ?_, ?_⟩
  · rw [hdp]
    exact greedy_le_optValue t os
  · rw [hdp, hbt]
  · rw [hdp, hbt]

/-- C2 witness: the chain at the Scenario A instance. -/
theorem C2_optimality_chain_witness :
    (greedyOptimize exTruckA [exOrder1, exOrder2]).totalPayout
      ≤ (dpOptimize exTruckA [exOrder1, exOrder2]).totalPayout ∧
    (dpOptimize exTruckA [exOrder1, exOrder2]).totalPayout
      = (btOptimize exTruckA [exOrder1, exOrder2]).totalPayout :=
  ⟨(C2_optimality_chain exTruckA [exOrder1, exOrder2]
      (by decide) (by decide) (by decide) (by decide)).1,
   (C2_optimality_chain exTruckA [exOrder1, exOrder2]
      (by decide) (by decide) (by decide) (by decide)).2.2⟩

/-- C6: the DP result is the best-payout entry over all valid (reachable)
masks of the table — not only the full mask — and among the masks attaining
that payout the returned selection decodes the lowest numeric one. -/
theorem C6_dp_lowest_mask : ∀ (t : Truck) (os : List Order), os.length ≤ 22 →
    dpOptimize t os = ⟨extractOrders
        (dpBest (dpTable t (filterFeasibleOrders t os))
          (2 ^ (filterFeasibleOrders t os).length)).2 (filterFeasibleOrders t os),
      (dpBest (dpTable t (filterFeasibleOrders t os))
        (2 ^ (filterFeasibleOrders t os).length)).1,
      (dpTable t (filterFeasibleOrders t os)).weight
        (dpBest (dpTable t (filterFeasibleOrders t os))
          (2 ^ (filterFeasibleOrders t os).length)).2,
      (dpTable t (filterFeasibleOrders t os)).volume
        (dpBest (dpTable t (filterFeasibleOrders t os))
          (2 ^ (filterFeasibleOrders t os).length)).2⟩ ∧
    (dpTable t (filterFeasibleOrders t os)).valid
      (dpBest (dpTable t (filterFeasibleOrders t os))
        (2 ^ (filterFeasibleOrders t os).length)).2 = true ∧
    (dpTable t (filterFeasibleOrders t os)).payout
      (dpBest (dpTable t (filterFeasibleOrders t os))
        (2 ^ (filterFeasibleOrders t os).length)).2
      = (dpBest (dpTable t (filterFeasibleOrders t os))
          (2 ^ (filterFeasibleOrders t os).length)).1 ∧
    (∀ m, m < 2 ^ (filterFeasibleOrders t os).length →
      (dpTable t (filterFeasibleOrders t os)).valid m = true →
      (dpTable t (filterFeasibleOrders t os)).payout m
        ≤ (dpBest (dpTable t (filterFeasibleOrders t os))
            (2 ^ (filterFeasibleOrders t os).length)).1) ∧
    (∀ m, m < (dpBest (dpTable t (filterFeasibleOrders t os))
          (2 ^ (filterFeasibleOrders t os).length)).2 →
      (dpTable t (filterFeasibleOrders t os)).valid m = true →
      (dpTable t (filterFeasibleOrders t os)).payout m
        < (dpBest (dpTable t (filterFeasibleOrders t os))
            (2 ^ (filterFeasibleOrders t os).length)).1) := by
  intro t os _
  have hspec := dpBest_spec (dpTable t (filterFeasibleOrders t os))
    (dpTable_valid_zero t _) (dpTable_payout_zero t _)
    (2 ^ (filterFeasibleOrders t os).length) (Nat.pos_pow_of_pos _ (by norm_num))
  refine ⟨?_, hspec.1, hspec.2.1, fun m hm hvm => hspec.2.2.2.1 m hm hvm,
    fun m hm hvm => hspec.2.2.2.2 m hm hvm⟩
  rw [dpOptimize_eq_dpResult]
  rfl

/-- C6 witness: the best mask of the Scenario A instance is a valid table
entry whose payout is the returned total. -/
theorem C6_dp_lowest_mask_witness :
    (dpTable exTruckA (filterFeasibleOrders exTruckA [exOrder1, exOrder2])).valid
      (dpBest (dpTable exTruckA (filterFeasibleOrders exTruckA [exOrder1, exOrder2]))
        (2 ^ (filterFeasibleOrders exTruckA [exOrder1, exOrder2]).length)).2 = true :=
  (C6_dp_lowest_mask exTruckA [exOrder1, exOrder2] (by decide)).2.1

/-- C4 counterexample: on a mutually-incompatible pair (Scenario C's
hazmat/non-hazmat orders, each of which fits the truck), the DP optimizer
returns a non-empty selection with non-zero payout — not the empty selection
with zero totals that the claim asserts for the
"no two orders mutually compatible" case. -/
theorem C4_degenerate_counterexample :
    canCombine exHaz exNonHaz = false ∧ canCombine exNonHaz exHaz = false ∧
    (dpOptimize exTruckA [exHaz, exNonHaz]).selectedOrders ≠ [] ∧
    (dpOptimize exTruckA [exHaz, exNonHaz]).totalPayout = 150000 := by
  decide

/-- C4 amended: an empty order list, or one in which no order individually
fits, yields the empty selection with zero totals from every optimizer; a
list in which no two orders are mutually compatible is likewise no error, but
it yields a selection of at most one order (the optimizers may still pick a
single best order). -/
theorem C4_degenerate_amended : ∀ (t : Truck) (os : List Order),
    (os = [] →
      dpOptimize t os = ⟨[], 0, 0, 0⟩ ∧ btOptimize t os = ⟨[], 0, 0, 0⟩ ∧
      greedyOptimize t os = ⟨[], 0, 0, 0⟩) ∧
    ((∀ o ∈ os, o.weightLbs > t.maxWeightLbs ∨ o.volumeCuft > t.maxVolumeCuft) →
      dpOptimize t os = ⟨[], 0, 0, 0⟩ ∧ btOptimize t os = ⟨[], 0, 0, 0⟩ ∧
      greedyOptimize t os = ⟨[], 0, 0, 0⟩) ∧
    ((∀ i, i < os.length → ∀ j, j < os.length → i ≠ j →
        canCombine (os.getD i dOrder) (os.getD j dOrder) = false) →
      (dpOptimize t os).selectedOrders.length ≤ 1 ∧
      (btOptimize t os).selectedOrders.length ≤ 1 ∧
      (greedyOptimize t os).selectedOrders.length ≤ 1) := by
  intro t os
  refine ⟨?_, ?_, ?_⟩
  · rintro rfl
    exact ⟨dpOptimize_empty_of_filter t [] rfl, btOptimize_empty_of_filter t [] rfl,
      greedyOptimize_empty_of_filter t [] rfl⟩
  · intro h
    have hfo := filterFeasibleOrders_eq_nil t os h
    exact ⟨dpOptimize_empty_of_filter t os hfo, btOptimize_empty_of_filter t os hfo,
      greedyOptimize_empty_of_filter t os hfo⟩
  · intro hnc
    refine ⟨?_, ?_, ?_⟩
    · rw [dpOptimize_eq_dpResult]
      have h := dpResult_consistent t (filterFeasibleOrders t os)
      exact selection_le_one hnc
        ((h.2.2.2.1.trans (List.filter_sublist os)).subperm) h.2.2.2.2
    · have h := btOptimize_consistent t os
      exact selection_le_one hnc
        ((h.2.2.2.1.trans (List.filter_sublist os)).subperm) h.2.2.2.2
    · have h := greedyOptimize_spec t os
      exact selection_le_one hnc
        (h.2.2.2.2.2.trans (List.filter_sublist os).subperm) h.2.2.2.1

/-- C4 amended witness: the empty list gives the empty result, and the
mutually-incompatible pair selects at most one order. -/
theorem C4_degenerate_amended_witness :
    dpOptimize exTruckA [] = ⟨[], 0, 0, 0⟩ ∧
    (dpOptimize exTruckA [exHaz, exNonHaz]).selectedOrders.length ≤ 1 :=
  ⟨((C4_degenerate_amended exTruckA []).1 rfl).1,
   ((C4_degenerate_amended exTruckA [exHaz, exNonHaz]).2.2 (by decide)).1⟩

/-- C1 counterexample: with balanced weights (1/2, 1/2), a truck of capacity
(2, 2) and one order of payout 100 filling it exactly, the service reports
total payout 5050 — the scalarized synthetic score
trunc(0.5·100 + 0.5·1·10000) — for a selection whose only order has original
payout 100, so the synthetic score does reach the caller. -/
theorem C1_scalarized_payout_counterexample :
    (optimizeLoadCore hybridOptimize exTruckSmall [exOrderSmall]
        ⟨1, 2⟩ ⟨1, 2⟩).selectedOrderIDs = [exOrderSmall.id] ∧
    exOrderSmall.payout = 100 ∧
    (optimizeLoadCore hybridOptimize exTruckSmall [exOrderSmall]
        ⟨1, 2⟩ ⟨1, 2⟩).totalPayoutCents = 5050 := by
  decide

/-- C1 amended: when the weights are not pure-revenue, the service solves on
relabeled orders and the synthetic score reaches the caller on both output
paths. In the `OptimizeLoad` response, the weight and volume totals are the
sums of the (unchanged, original) weight and volume attributes of the
selected orders, but the reported total payout is the sum of the relabeled
synthetic payouts of the selected orders. Likewise every `ParetoSolution`
returned by `GetParetoOptimalSolutions` is built from the solve at one of
the five fixed weight vectors: its payout total is the sum of the relabeled
synthetic payouts of its selected orders, and its weight and volume totals
are the sums of the original (unchanged) attributes of those orders. -/
theorem C1_scalarized_totals_amended : ∀ (t : Truck) (os : List Order) (rvw uvw : Frac),
    (rvw ≠ Frac.ofInt 1 ∨ uvw ≠ Frac.ofInt 0) →
    optimizeLoadCore hybridOptimize t os rvw uvw
      = buildResponse t (hybridOptimize t
          ((filterFeasibleOrders t os).map (weightedOrder t rvw uvw))) ∧
    (optimizeLoadCore hybridOptimize t os rvw uvw).totalPayoutCents
      = sumPayout (hybridOptimize t
          ((filterFeasibleOrders t os).map (weightedOrder t rvw uvw))).selectedOrders ∧
    (optimizeLoadCore hybridOptimize t os rvw uvw).totalWeightLbs
      = sumWeight (hybridOptimize t
          ((filterFeasibleOrders t os).map (weightedOrder t rvw uvw))).selectedOrders ∧
    (optimizeLoadCore hybridOptimize t os rvw uvw).totalVolumeCuft
      = sumVolume (hybridOptimize t
          ((filterFeasibleOrders t os).map (weightedOrder t rvw uvw))).selectedOrders ∧
    (∀ o2 ∈ (hybridOptimize t
        ((filterFeasibleOrders t os).map (weightedOrder t rvw uvw))).selectedOrders,
      ∃ o ∈ os, o2 = weightedOrder t rvw uvw o ∧ o2.id = o.id ∧
        o2.weightLbs = o.weightLbs ∧ o2.volumeCuft = o.volumeCuft) ∧
    ∀ (k : Nat), ∀ s ∈ getParetoOptimalSolutions hybridOptimize t os k,
      ∃ w ∈ fiveWeights,
        s = mkParetoSolution t w
              (hybridOptimize t (os.map (weightedOrder t w.1 w.2))) ∧
        s.totalPayoutCents = sumPayout
          (hybridOptimize t (os.map (weightedOrder t w.1 w.2))).selectedOrders ∧
        s.totalWeightLbs = sumWeight
          (hybridOptimize t (os.map (weightedOrder t w.1 w.2))).selectedOrders ∧
        s.totalVolumeCuft = sumVolume
          (hybridOptimize t (os.map (weightedOrder t w.1 w.2))).selectedOrders ∧
        ∀ o2 ∈ (hybridOptimize t (os.map (weightedOrder t w.1 w.2))).selectedOrders,
          ∃ o ∈ os, o2 = weightedOrder t w.1 w.2 o ∧ o2.id = o.id ∧
            o2.weightLbs = o.weightLbs ∧ o2.volumeCuft = o.volumeCuft := by
  intro t os rvw uvw h
  have heq : optimizeLoadCore hybridOptimize t os rvw uvw
      = buildResponse t (hybridOptimize t
          ((filterFeasibleOrders t os).map (weightedOrder t rvw uvw))) := by
    unfold optimizeLoadCore optimizeWithWeights
    dsimp only
    rw [if_pos h]
  have hcons := hybridOptimize_consistent t
    ((filterFeasibleOrders t os).map (weightedOrder t rvw uvw))
  refine ⟨heq, ?_, ?_, ?_, ?_, ?_⟩
  · rw [heq]
    exact hcons.1
  · rw [heq]
    exact hcons.2.1
  · rw [heq]
    exact hcons.2.2.1
  · intro o2 ho2
    obtain ⟨o, ho, rfl⟩ := List.mem_map.mp (hcons.2.2.2 o2 ho2)
    exact ⟨o, (List.filter_sublist os).subset ho, rfl, rfl, rfl, rfl⟩
  · intro k s hs
    rw [getPareto_eq_filter_take hybridOptimize t os k] at hs
    have hs2 := List.mem_of_mem_take (mem_filterParetoOptimal _ _ hs)
    obtain ⟨wr, hwr, rfl⟩ := List.mem_map.mp hs2
    obtain ⟨hw1, hw2⟩ := dedupCandidates_mem hybridOptimize t os fiveWeights [] wr hwr
    have hcons2 := hybridOptimize_consistent t
      (os.map (weightedOrder t wr.1.1 wr.1.2))
    refine ⟨wr.1, hw1, ?_, ?_, ?_, ?_, ?_⟩
    · rw [hw2]
      rfl
    · rw [hw2]
      exact hcons2.1
    · rw [hw2]
      exact hcons2.2.1
    · rw [hw2]
      exact hcons2.2.2.1
    · intro o2 ho2
      obtain ⟨o, ho, rfl⟩ := List.mem_map.mp (hcons2.2.2.2 o2 ho2)
      exact ⟨o, ho, rfl, rfl, rfl, rfl⟩

/-- C1 amended witness: the relabeled solve at the counterexample input, on
both the response path and the Pareto path. -/
theorem C1_scalarized_totals_amended_witness :
    ((optimizeLoadCore hybridOptimize exTruckSmall [exOrderSmall]
        ⟨1, 2⟩ ⟨1, 2⟩).totalWeightLbs
      = sumWeight (hybridOptimize exTruckSmall
          ((filterFeasibleOrders exTruckSmall [exOrderSmall]).map
            (weightedOrder exTruckSmall ⟨1, 2⟩ ⟨1, 2⟩))).selectedOrders) ∧
    ∃ w ∈ fiveWeights,
      ((getParetoOptimalSolutions hybridOptimize exTruckSmall
          [exOrderSmall] 5).getD 0 dSol).totalPayoutCents
        = sumPayout (hybridOptimize exTruckSmall
            ([exOrderSmall].map (weightedOrder exTruckSmall w.1 w.2))).selectedOrders := by
  refine ⟨(C1_scalarized_totals_amended exTruckSmall [exOrderSmall] ⟨1, 2⟩ ⟨1, 2⟩
      (Or.inl (by decide))).2.2.1, ?_⟩
  obtain ⟨w, hw, hrest⟩ :=
    (C1_scalarized_totals_amended exTruckSmall [exOrderSmall] ⟨1, 2⟩ ⟨1, 2⟩
      (Or.inl (by decide))).2.2.2.2.2 5
      ((getParetoOptimalSolutions hybridOptimize exTruckSmall [exOrderSmall] 5).getD 0 dSol)
      (by decide)
  exact ⟨w, hw, hrest.2.1⟩

/-- C5 counterexample: at maximum count 1 on two incompatible orders of equal
payout, the service's list differs from the spec's
dominance-filter-then-truncate pipeline: the loop breaks after collecting the
pure-revenue candidate (selection A), while filtering the full candidate list
first would return the higher-utilization candidate (selection B) that
dominates it. -/
theorem C5_truncation_counterexample :
    getParetoOptimalSolutions hybridOptimize exTruckSmall [exOrderPA, exOrderPB] 1
      ≠ paretoSpecPipeline hybridOptimize exTruckSmall [exOrderPA, exOrderPB] 1 := by
  decide

/-- C5 amended: the service builds candidates at the five fixed weight
vectors with key-based deduplication, stops collecting as soon as
max 1 maxSolutions candidates are gathered (so the bound is applied to the
deduplicated candidate list, before dominance filtering, and a zero bound
still yields one candidate), and returns the dominance filter of that
truncated list. -/
theorem C5_pareto_pipeline_amended :
    ∀ (opt : Truck → List Order → OptimizationResult) (t : Truck)
      (orders : List Order) (k : Nat),
    getParetoOptimalSolutions opt t orders k
      = filterParetoOptimal (((dedupCandidates opt t orders fiveWeights []).map
          (fun wr => mkParetoSolution t wr.1 wr.2)).take (max 1 k)) :=
  fun opt t orders k => getPareto_eq_filter_take opt t orders k

/-- C7: no solution in a returned Pareto list dominates another, with
dominance as the code compares it (at least as good on payout and both
rounded utilization percentages, strictly better on at least one). -/
theorem C7_pareto_dominance_free :
    ∀ (opt : Truck → List Order → OptimizationResult) (t : Truck)
      (orders : List Order) (k : Nat) (x y : ParetoSolution),
    x ∈ getParetoOptimalSolutions opt t orders k →
    y ∈ getParetoOptimalSolutions opt t orders k →
    dominates x y = false := by
  intro opt t orders k x y hx hy
  unfold getParetoOptimalSolutions at hx hy
  exact filterParetoOptimal_nondominating _ x hx y hy

/-- C7 witness: the solution returned for the two-order instance does not
dominate itself. -/
theorem C7_pareto_dominance_free_witness :
    dominates
      ((getParetoOptimalSolutions hybridOptimize exTruckSmall
          [exOrderPA, exOrderPB] 5).getD 0 dSol)
      ((getParetoOptimalSolutions hybridOptimize exTruckSmall
          [exOrderPA, exOrderPB] 5).getD 0 dSol) = false :=
  C7_pareto_dominance_free hybridOptimize exTruckSmall [exOrderPA, exOrderPB] 5 _ _
    (by decide) (by decide)

end SmartLoad
